import Mathlib

/-!
A verification model of the mem-mcp memory store (`src/mem.ts`).

Strings of the TypeScript source are modelled as `List Char` (called `Str`
below); the filesystem directory of one user is modelled as an association
list from filename to file content.  Pure functions of the source
(`validateFilename`, `getSafeFilepath`, `parseFrontmatter`,
`serializeFrontmatter`, `extractTitle`, `formatMemory`, the slugification in
`writeMemory`) are translated directly.  Stateful operations
(`writeMemory`, `updateMemory`, `deleteMemory`, `archiveMemory`,
`readMemories`, `evictMemories`) become explicit state-passing functions on
the store.  External effects that cannot be embedded purely are oracles
passed as parameters:

* `fuse` — the Fuse.js fuzzy matcher: for a fixed corpus, it maps a search
  term to the (ranked, duplicate-free) list of indices of matching records,
  modelling `fuse.search(term)` composed with `memories.indexOf`;
* `toTime` — `new Date(s).getTime()` on a stored timestamp string;
* `inferC` — `inferCreatedAt` (regex on a legacy footer, `statSync` mtime,
  `Date` parsing: all boundary effects);
* `sweep` — the `maybeEvict` step inside `readMemories`, whose trigger
  depends on the process-global throttle map and the wall clock (it is the
  identity when the 24h throttle suppresses the sweep);
* `cwd` — the process working directory against which `node:path.resolve`
  resolves relative paths, given as a list of path segments;
* `nowIso` / `now` — the current time as an ISO string / epoch milliseconds.
-/

abbrev Str := List Char

/-- JS `s.includes(pat)`: `pat` occurs as a contiguous substring of `s`. -/
def strIncludes (s pat : Str) : Bool :=
  match s with
  | [] => decide (pat = [])
  | _ :: rest => pat.isPrefixOf s || strIncludes rest pat

/-- Whitespace as treated by JS `String.prototype.trim` (ASCII portion). -/
def isWsChar (c : Char) : Bool :=
  c = ' ' || c = '\t' || c = '\n' || c = '\r' || c = '\x0b' || c = '\x0c'

/-- JS `s.trim()`: strip leading and trailing whitespace. -/
def jsTrim (s : Str) : Str :=
  ((s.dropWhile isWsChar).reverse.dropWhile isWsChar).reverse

/-- JS `s.split(sep)` for a one-character separator: every occurrence splits,
empty pieces are kept. -/
def splitOnChar (sep : Char) : Str → List Str
  | [] => [[]]
  | c :: rest =>
    if c = sep then [] :: splitOnChar sep rest
    else
      match splitOnChar sep rest with
      | [] => [[c]]
      | l :: ls => (c :: l) :: ls

/-- Split a string at the first occurrence of `pat`, returning the parts
before and after it; `none` when `pat` does not occur.  This is the
first-match (lazy quantifier) semantics of the frontmatter regex. -/
def splitFirst (pat : Str) : Str → Option (Str × Str)
  | [] => if pat = [] then some ([], []) else none
  | c :: rest =>
    if pat.isPrefixOf (c :: rest) then some ([], (c :: rest).drop pat.length)
    else
      match splitFirst pat rest with
      | some (pre, post) => some (c :: pre, post)
      | none => none

/-- Overwrite-or-create in the filename-to-content association list,
modelling `writeFileSync`: an existing entry is replaced in place, a new
file is appended. -/
def setStore : List (Str × Str) → Str → Str → List (Str × Str)
  | [], k, v => [(k, v)]
  | (k1, v1) :: rest, k, v =>
    if k1 = k then (k, v) :: rest else (k1, v1) :: setStore rest k v

/-- Lookup by filename in the store (first entry wins). -/
def getStore (store : List (Str × Str)) (k : Str) : Option Str :=
  (store.find? (fun e => decide (e.1 = k))).map Prod.snd

/-- Delete a filename from the store, modelling `unlinkSync`. -/
def delStore : List (Str × Str) → Str → List (Str × Str)
  | [], _ => []
  | (k1, v1) :: rest, k =>
    if k1 = k then rest else (k1, v1) :: delStore rest k

/- ### Priority and metadata (`Priority`, `MemoryMeta` in mem.ts) -/

inductive Priority
  | P0
  | P1
  | P2
deriving DecidableEq

def priorityStr : Priority → Str
  | .P0 => "P0".toList
  | .P1 => "P1".toList
  | .P2 => "P2".toList

structure MemoryMeta where
  priority : Priority
  createdAt : Str
  updatedAt : Str
  lastAccessedAt : Str
deriving DecidableEq

/- ### Metadata codec (`parseFrontmatter` / `serializeFrontmatter`) -/

def fmOpen : Str := "---\n".toList

def fmClose : Str := "\n---\n".toList

def priorityKey : Str := "priority".toList

def createdKey : Str := "createdAt".toList

def updatedKey : Str := "updatedAt".toList

def lastKey : Str := "lastAccessedAt".toList

/-- The `getValue` helper inside `parseFrontmatter`: find the first line of
the raw block that starts with `key ++ ":"`, drop the key and the colon and
trim the remainder. -/
def getValue (raw key : Str) : Option Str :=
  ((splitOnChar '\n' raw).find? (fun l => (key ++ [':']).isPrefixOf l)).map
    (fun l => jsTrim (l.drop (key.length + 1)))

/-- The priority validity check of `parseFrontmatter`: the trimmed value must
be exactly one of the three tokens. -/
def parsePriority (s : Str) : Option Priority :=
  if s = "P0".toList then some .P0
  else if s = "P1".toList then some .P1
  else if s = "P2".toList then some .P2
  else none

/-- The `parseFrontmatter` of mem.ts.  The regex
`^---\n([\s\S]*?)\n---\n` anchors the opening marker at the start of the
content and takes the block up to the first occurrence of the closing
marker (lazy quantifier); all four fields must be present with truthy
(non-empty after trim) values and the priority must be valid, otherwise the
whole block is treated as absent and the body is the whole content. -/
def parseFrontmatter (content : Str) : Option MemoryMeta × Str :=
  if fmOpen.isPrefixOf content then
    match splitFirst fmClose (content.drop fmOpen.length) with
    | none => (none, content)
    | some (raw, rest) =>
      match getValue raw priorityKey, getValue raw createdKey,
            getValue raw updatedKey, getValue raw lastKey with
      | some p, some c, some u, some l =>
        if p = [] || c = [] || u = [] || l = [] then (none, content)
        else
          match parsePriority p with
          | none => (none, content)
          | some pr => (some ⟨pr, c, u, l⟩, rest)
      | _, _, _, _ => (none, content)
  else (none, content)

/-- The `serializeFrontmatter` of mem.ts: the four fields in canonical order
followed by the body. -/
def serializeFrontmatter (meta : MemoryMeta) (body : Str) : Str :=
  "---\npriority: ".toList ++ priorityStr meta.priority
    ++ "\ncreatedAt: ".toList ++ meta.createdAt
    ++ "\nupdatedAt: ".toList ++ meta.updatedAt
    ++ "\nlastAccessedAt: ".toList ++ meta.lastAccessedAt
    ++ "\n---\n".toList ++ body

example :
    parseFrontmatter (serializeFrontmatter ⟨.P1, "a".toList, "b".toList, "c".toList⟩ "# T\nbody".toList)
      = (some ⟨.P1, "a".toList, "b".toList, "c".toList⟩, "# T\nbody".toList) := by decide

example : (parseFrontmatter "# Title\nplain".toList) = (none, "# Title\nplain".toList) := by decide

/- ### Generic lemmas about the string helpers -/

lemma isPrefixOfTrue {l1 l2 : Str} : l1.isPrefixOf l2 = true ↔ l1 <+: l2 :=
  List.isPrefixOf_iff_prefix

lemma prefixOfLengthLe {l1 l2 l3 : Str} (h1 : l1 <+: l3) (h2 : l2 <+: l3)
    (h : l1.length ≤ l2.length) : l1 <+: l2 :=
  List.prefix_of_prefix_length_le h1 h2 h

lemma prefixAppend (l1 l2 : Str) : l1 <+: l1 ++ l2 :=
  List.prefix_append l1 l2

lemma infixOfNil {l : Str} : l <:+: ([] : Str) ↔ l = [] :=
  List.infix_nil

lemma infixOfConsIff {l1 : Str} {a : Char} {l2 : Str} :
    l1 <:+: a :: l2 ↔ l1 <+: a :: l2 ∨ l1 <:+: l2 :=
  List.infix_cons_iff

lemma infixOfConsSelf {l : Str} {x : Char} : l <:+: x :: l :=
  ⟨[x], [], by simp⟩

lemma isPrefixOf_append_self (k t : Str) : k.isPrefixOf (k ++ t) = true := by
  rw [isPrefixOfTrue]
  exact prefixAppend k t

lemma isPrefixOf_cons_ne {a b : Char} (as bs : Str) (h : a ≠ b) :
    (a :: as).isPrefixOf (b :: bs) = false := by
  simp [List.isPrefixOf, h]

lemma dropWhile_eq_self_of_trim (s : Str) (h : jsTrim s = s) :
    s.dropWhile isWsChar = s ∧ s.reverse.dropWhile isWsChar = s.reverse := by
  have h1 : (s.dropWhile isWsChar).length ≤ s.length :=
    (List.dropWhile_suffix isWsChar).length_le
  have h2 : ((s.dropWhile isWsChar).reverse.dropWhile isWsChar).length ≤
      (s.dropWhile isWsChar).reverse.length :=
    (List.dropWhile_suffix isWsChar).length_le
  have hlen : (jsTrim s).length = s.length := by rw [h]
  have hlen2 : ((s.dropWhile isWsChar).reverse.dropWhile isWsChar).length = s.length := by
    simpa [jsTrim] using hlen
  simp only [List.length_reverse] at h2
  have hd : (s.dropWhile isWsChar).length = s.length := le_antisymm h1 (by omega)
  have hds : s.dropWhile isWsChar = s :=
    (List.dropWhile_suffix isWsChar).eq_of_length hd
  refine ⟨hds, ?_⟩
  rw [hds] at hlen2
  exact (List.dropWhile_suffix isWsChar).eq_of_length (by simpa using hlen2)

lemma jsTrim_cons_space (s : Str) (h : jsTrim s = s) : jsTrim (' ' :: s) = s := by
  obtain ⟨h1, h2⟩ := dropWhile_eq_self_of_trim s h
  simp [jsTrim, List.dropWhile, isWsChar, h1, h2]

lemma splitOnChar_not_mem {sep : Char} {a : Str} (h : sep ∉ a) :
    splitOnChar sep a = [a] := by
  induction a with
  | nil => rfl
  | cons c rest ih =>
    have hc : c ≠ sep := fun hc => h (hc ▸ List.mem_cons_self c rest)
    have hr : sep ∉ rest := fun hr => h (List.mem_cons_of_mem c hr)
    simp [splitOnChar, hc, ih hr]

lemma splitOnChar_append_cons {sep : Char} {a : Str} (b : Str) (h : sep ∉ a) :
    splitOnChar sep (a ++ sep :: b) = a :: splitOnChar sep b := by
  induction a with
  | nil => simp [splitOnChar]
  | cons c rest ih =>
    have hc : c ≠ sep := fun hc => h (hc ▸ List.mem_cons_self c rest)
    have hr : sep ∉ rest := fun hr => h (List.mem_cons_of_mem c hr)
    rw [List.cons_append, splitOnChar, if_neg hc, ih hr]

lemma dropLast_append_prefix (pat : Str) (hne : pat ≠ []) (pre post : Str) :
    (pre ++ pat.dropLast) <+: (pre ++ pat ++ post) := by
  have hlast : pat.dropLast ++ [pat.getLast hne] = pat := List.dropLast_append_getLast hne
  refine ⟨[pat.getLast hne] ++ post, ?_⟩
  calc pre ++ pat.dropLast ++ ([pat.getLast hne] ++ post)
      = pre ++ (pat.dropLast ++ [pat.getLast hne]) ++ post := by simp [List.append_assoc]
    _ = pre ++ pat ++ post := by rw [hlast]

lemma not_isPrefixOf_of_not_infix (pat pre post : Str) (hne : pat ≠ [])
    (hpre : pre ≠ []) (h : ¬ pat <:+: (pre ++ pat.dropLast)) :
    ¬ pat <+: (pre ++ pat ++ post) := by
  intro hpfx
  have hpfx2 : (pre ++ pat.dropLast) <+: (pre ++ pat ++ post) :=
    dropLast_append_prefix pat hne pre post
  have hlen : pat.length ≤ (pre ++ pat.dropLast).length := by
    have hdl : pat.dropLast.length = pat.length - 1 := List.length_dropLast pat
    have h1 : 1 ≤ pat.length := List.length_pos.mpr hne
    have h2 : 1 ≤ pre.length := List.length_pos.mpr hpre
    simp only [List.length_append, hdl]
    omega
  exact h (prefixOfLengthLe hpfx hpfx2 hlen).isInfix

lemma splitFirst_append (pat pre post : Str) (hne : pat ≠ [])
    (h : ¬ pat <:+: (pre ++ pat.dropLast)) :
    splitFirst pat (pre ++ pat ++ post) = some (pre, post) := by
  induction pre with
  | nil =>
    obtain ⟨c, cs, rfl⟩ : ∃ c cs, pat = c :: cs := by
      cases pat with
      | nil => exact absurd rfl hne
      | cons c cs => exact ⟨c, cs, rfl⟩
    have hpre : (c :: cs).isPrefixOf (c :: (cs ++ post)) = true := by
      have := isPrefixOf_append_self (c :: cs) post
      simp only [List.cons_append] at this
      exact this
    simp only [List.nil_append, List.cons_append]
    rw [splitFirst, if_pos hpre]
    have hdrop : (c :: (cs ++ post)).drop (c :: cs).length = post := by
      have := List.drop_left (c :: cs) post
      simp only [List.cons_append] at this
      exact this
    rw [hdrop]
  | cons x pre ih =>
    have hnp : ¬ pat <+: ((x :: pre) ++ pat ++ post) :=
      not_isPrefixOf_of_not_infix pat (x :: pre) post hne (by simp) h
    have hnp2 : ¬ pat.isPrefixOf (x :: (pre ++ pat ++ post)) = true := by
      intro hb
      exact hnp (by simpa using isPrefixOfTrue.mp hb)
    have h2 : ¬ pat <:+: (pre ++ pat.dropLast) := by
      intro hcon
      exact h (hcon.trans infixOfConsSelf)
    simp only [List.cons_append]
    rw [splitFirst, if_neg hnp2, ih h2]

lemma splitFirst_some (pat : Str) (hne : pat ≠ []) :
    ∀ (s pre post : Str), splitFirst pat s = some (pre, post) →
      s = pre ++ pat ++ post ∧ ¬ pat <:+: (pre ++ pat.dropLast) := by
  intro s
  induction s with
  | nil =>
    intro pre post hsp
    simp [splitFirst, hne] at hsp
  | cons c rest ih =>
    intro pre post hsp
    rw [splitFirst] at hsp
    by_cases hp : pat.isPrefixOf (c :: rest) = true
    · rw [if_pos hp] at hsp
      obtain ⟨t, ht⟩ := isPrefixOfTrue.mp hp
      simp only [Option.some.injEq, Prod.mk.injEq] at hsp
      obtain ⟨hpre, hpost⟩ := hsp
      subst hpre
      constructor
      · rw [List.nil_append, ← ht, ← hpost, ← ht]
        simp
      · intro hcon
        have := hcon.length_le
        have hdl : pat.dropLast.length = pat.length - 1 := List.length_dropLast pat
        have hq : 1 ≤ pat.length := List.length_pos.mpr hne
        simp only [List.nil_append, hdl] at this
        omega
    · rw [if_neg hp] at hsp
      match hrec : splitFirst pat rest with
      | none => rw [hrec] at hsp; exact absurd hsp (by simp)
      | some (pre2, post2) =>
        rw [hrec] at hsp
        simp only [Option.some.injEq, Prod.mk.injEq] at hsp
        obtain ⟨hpre, hpost⟩ := hsp
        obtain ⟨hres, hocc⟩ := ih pre2 post2 hrec
        subst hpre
        subst hpost
        refine ⟨by rw [hres]; simp, ?_⟩
        intro hcon
        obtain ⟨u, v, huv⟩ := hcon
        match u with
        | [] =>
          -- then pat would be a prefix of c :: rest, against the branch guard
          have hpfx : pat <+: ((c :: pre2) ++ pat.dropLast) := by
            refine ⟨v, ?_⟩
            simpa using huv
          have hstep : ((c :: pre2) ++ pat.dropLast) <+: (c :: rest) := by
            rw [hres]
            have := dropLast_append_prefix pat hne (c :: pre2) post2
            simpa [List.append_assoc] using this
          have : pat <+: (c :: rest) := hpfx.trans hstep
          exact hp (isPrefixOfTrue.mpr this)
        | x :: u2 =>
          have huv2 : x :: (u2 ++ (pat ++ v)) = c :: (pre2 ++ pat.dropLast) := by
            simpa [List.append_assoc] using huv
          have h2 : u2 ++ (pat ++ v) = pre2 ++ pat.dropLast := (List.cons.injEq _ _ _ _ ▸ huv2).2
          exact hocc ⟨u2, v, by simpa [List.append_assoc] using h2⟩

/- ### Decomposition of a serialized record -/

/-- The raw metadata block (between the markers) produced by
`serializeFrontmatter`. -/
def rawOf (m : MemoryMeta) : Str :=
  ("priority: ".toList ++ priorityStr m.priority)
    ++ '\n' :: (("createdAt: ".toList ++ m.createdAt)
    ++ '\n' :: (("updatedAt: ".toList ++ m.updatedAt)
    ++ '\n' :: ("lastAccessedAt: ".toList ++ m.lastAccessedAt)))

lemma serialize_eq (m : MemoryMeta) (b : Str) :
    serializeFrontmatter m b = fmOpen ++ (rawOf m ++ (fmClose ++ b)) := by
  have l1 : "---\npriority: ".toList = fmOpen ++ "priority: ".toList := by decide
  have l2 : "\ncreatedAt: ".toList = '\n' :: "createdAt: ".toList := by decide
  have l3 : "\nupdatedAt: ".toList = '\n' :: "updatedAt: ".toList := by decide
  have l4 : "\nlastAccessedAt: ".toList = '\n' :: "lastAccessedAt: ".toList := by decide
  simp only [serializeFrontmatter, rawOf, fmOpen, fmClose, l1, l2, l3, l4,
    List.append_assoc, List.cons_append, List.nil_append]

lemma priorityStr_ne_nil (pr : Priority) : priorityStr pr ≠ [] := by
  cases pr <;> decide

lemma priorityStr_no_nl (pr : Priority) : '\n' ∉ priorityStr pr := by
  cases pr <;> decide

lemma rawOf_lines (m : MemoryMeta) (hc : '\n' ∉ m.createdAt)
    (hu : '\n' ∉ m.updatedAt) (hl : '\n' ∉ m.lastAccessedAt) :
    splitOnChar '\n' (rawOf m) =
      ["priority: ".toList ++ priorityStr m.priority,
       "createdAt: ".toList ++ m.createdAt,
       "updatedAt: ".toList ++ m.updatedAt,
       "lastAccessedAt: ".toList ++ m.lastAccessedAt] := by
  have h1 : '\n' ∉ "priority: ".toList ++ priorityStr m.priority := by
    intro hmem
    rcases List.mem_append.mp hmem with h | h
    · revert h; decide
    · exact priorityStr_no_nl m.priority h
  have h2 : '\n' ∉ "createdAt: ".toList ++ m.createdAt := by
    intro hmem
    rcases List.mem_append.mp hmem with h | h
    · revert h; decide
    · exact hc h
  have h3 : '\n' ∉ "updatedAt: ".toList ++ m.updatedAt := by
    intro hmem
    rcases List.mem_append.mp hmem with h | h
    · revert h; decide
    · exact hu h
  have h4 : '\n' ∉ "lastAccessedAt: ".toList ++ m.lastAccessedAt := by
    intro hmem
    rcases List.mem_append.mp hmem with h | h
    · revert h; decide
    · exact hl h
  rw [rawOf, splitOnChar_append_cons _ h1, splitOnChar_append_cons _ h2,
    splitOnChar_append_cons _ h3, splitOnChar_not_mem h4]

lemma append_cons_cases {x : Char} (u v a b : Str) (hu : x ∉ u)
    (h : u ++ x :: v = a ++ x :: b) :
    (a = u ∧ b = v) ∨ ∃ a2, a = u ++ x :: a2 ∧ v = a2 ++ x :: b := by
  rcases List.append_eq_append_iff.mp h with ⟨a2, ha, hv⟩ | ⟨c2, hu2, hb⟩
  · match a2, hv with
    | [], hv =>
      left
      refine ⟨by simpa using ha, ?_⟩
      simpa using hv.symm
    | y :: a3, hv =>
      right
      have hy : x = y ∧ v = a3 ++ x :: b := by
        constructor
        · exact (List.cons.injEq _ _ _ _ ▸ hv).1
        · exact (List.cons.injEq _ _ _ _ ▸ hv).2
      exact ⟨a3, by rw [ha, ← hy.1], hy.2⟩
  · match c2, hb with
    | [], hb =>
      left
      refine ⟨by simpa using hu2.symm, ?_⟩
      simpa using hb
    | y :: c3, hb =>
      exfalso
      have hy : x = y := (List.cons.injEq _ _ _ _ ▸ hb).1
      apply hu
      rw [hu2, ← hy]
      exact List.mem_append.mpr (Or.inr (List.mem_cons_self _ _))

lemma jsTrim_space_priorityStr (pr : Priority) :
    jsTrim (' ' :: priorityStr pr) = priorityStr pr := by
  cases pr <;> decide

lemma getValue_rawOf_priority (m : MemoryMeta) (hc : '\n' ∉ m.createdAt)
    (hu : '\n' ∉ m.updatedAt) (hl : '\n' ∉ m.lastAccessedAt) :
    getValue (rawOf m) priorityKey = some (priorityStr m.priority) := by
  rw [getValue, rawOf_lines m hc hu hl]
  have hk : "priority: ".toList = (priorityKey ++ [':']) ++ [' '] := by decide
  have hfind : (priorityKey ++ [':']).isPrefixOf
      ("priority: ".toList ++ priorityStr m.priority) = true := by
    rw [hk, List.append_assoc]
    exact isPrefixOf_append_self _ _
  simp only [List.find?, hfind]
  rw [Option.map_some']
  congr 1
  rw [hk, List.append_assoc]
  have hlen : priorityKey.length + 1 = ((priorityKey ++ [':']) : Str).length := by decide
  rw [hlen, List.drop_left]
  exact jsTrim_space_priorityStr m.priority

lemma getValue_rawOf_created (m : MemoryMeta) (hc : '\n' ∉ m.createdAt)
    (hu : '\n' ∉ m.updatedAt) (hl : '\n' ∉ m.lastAccessedAt)
    (htr : jsTrim m.createdAt = m.createdAt) :
    getValue (rawOf m) createdKey = some m.createdAt := by
  rw [getValue, rawOf_lines m hc hu hl]
  have hmiss1 : (createdKey ++ [':']).isPrefixOf
      ("priority: ".toList ++ priorityStr m.priority) = false := by
    rw [show (createdKey ++ [':'] : Str) = 'c' :: ("reatedAt".toList ++ [':']) from by decide,
      show "priority: ".toList = 'p' :: "riority: ".toList from by decide, List.cons_append]
    exact isPrefixOf_cons_ne _ _ (by decide)
  have hk : "createdAt: ".toList = (createdKey ++ [':']) ++ [' '] := by decide
  have hfind : (createdKey ++ [':']).isPrefixOf
      ("createdAt: ".toList ++ m.createdAt) = true := by
    rw [hk, List.append_assoc]
    exact isPrefixOf_append_self _ _
  have hval : jsTrim (("createdAt: ".toList ++ m.createdAt).drop (createdKey.length + 1))
      = m.createdAt := by
    rw [hk, List.append_assoc]
    have hlen : createdKey.length + 1 = ((createdKey ++ [':']) : Str).length := by decide
    rw [hlen, List.drop_left]
    exact jsTrim_cons_space _ htr
  simp only [List.find?, hmiss1, hfind, Option.map_some', hval]

lemma getValue_rawOf_updated (m : MemoryMeta) (hc : '\n' ∉ m.createdAt)
    (hu : '\n' ∉ m.updatedAt) (hl : '\n' ∉ m.lastAccessedAt)
    (htr : jsTrim m.updatedAt = m.updatedAt) :
    getValue (rawOf m) updatedKey = some m.updatedAt := by
  rw [getValue, rawOf_lines m hc hu hl]
  have hmiss1 : (updatedKey ++ [':']).isPrefixOf
      ("priority: ".toList ++ priorityStr m.priority) = false := by
    rw [show (updatedKey ++ [':'] : Str) = 'u' :: ("pdatedAt".toList ++ [':']) from by decide,
      show "priority: ".toList = 'p' :: "riority: ".toList from by decide, List.cons_append]
    exact isPrefixOf_cons_ne _ _ (by decide)
  have hmiss2 : (updatedKey ++ [':']).isPrefixOf
      ("createdAt: ".toList ++ m.createdAt) = false := by
    rw [show (updatedKey ++ [':'] : Str) = 'u' :: ("pdatedAt".toList ++ [':']) from by decide,
      show "createdAt: ".toList = 'c' :: "reatedAt: ".toList from by decide, List.cons_append]
    exact isPrefixOf_cons_ne _ _ (by decide)
  have hk : "updatedAt: ".toList = (updatedKey ++ [':']) ++ [' '] := by decide
  have hfind : (updatedKey ++ [':']).isPrefixOf
      ("updatedAt: ".toList ++ m.updatedAt) = true := by
    rw [hk, List.append_assoc]
    exact isPrefixOf_append_self _ _
  have hval : jsTrim (("updatedAt: ".toList ++ m.updatedAt).drop (updatedKey.length + 1))
      = m.updatedAt := by
    rw [hk, List.append_assoc]
    have hlen : updatedKey.length + 1 = ((updatedKey ++ [':']) : Str).length := by decide
    rw [hlen, List.drop_left]
    exact jsTrim_cons_space _ htr
  simp only [List.find?, hmiss1, hmiss2, hfind, Option.map_some', hval]

lemma getValue_rawOf_last (m : MemoryMeta) (hc : '\n' ∉ m.createdAt)
    (hu : '\n' ∉ m.updatedAt) (hl : '\n' ∉ m.lastAccessedAt)
    (htr : jsTrim m.lastAccessedAt = m.lastAccessedAt) :
    getValue (rawOf m) lastKey = some m.lastAccessedAt := by
  rw [getValue, rawOf_lines m hc hu hl]
  have hmiss1 : (lastKey ++ [':']).isPrefixOf
      ("priority: ".toList ++ priorityStr m.priority) = false := by
    rw [show (lastKey ++ [':'] : Str) = 'l' :: ("astAccessedAt".toList ++ [':']) from by decide,
      show "priority: ".toList = 'p' :: "riority: ".toList from by decide, List.cons_append]
    exact isPrefixOf_cons_ne _ _ (by decide)
  have hmiss2 : (lastKey ++ [':']).isPrefixOf
      ("createdAt: ".toList ++ m.createdAt) = false := by
    rw [show (lastKey ++ [':'] : Str) = 'l' :: ("astAccessedAt".toList ++ [':']) from by decide,
      show "createdAt: ".toList = 'c' :: "reatedAt: ".toList from by decide, List.cons_append]
    exact isPrefixOf_cons_ne _ _ (by decide)
  have hmiss3 : (lastKey ++ [':']).isPrefixOf
      ("updatedAt: ".toList ++ m.updatedAt) = false := by
    rw [show (lastKey ++ [':'] : Str) = 'l' :: ("astAccessedAt".toList ++ [':']) from by decide,
      show "updatedAt: ".toList = 'u' :: "pdatedAt: ".toList from by decide, List.cons_append]
    exact isPrefixOf_cons_ne _ _ (by decide)
  have hk : "lastAccessedAt: ".toList = (lastKey ++ [':']) ++ [' '] := by decide
  have hfind : (lastKey ++ [':']).isPrefixOf
      ("lastAccessedAt: ".toList ++ m.lastAccessedAt) = true := by
    rw [hk, List.append_assoc]
    exact isPrefixOf_append_self _ _
  have hval : jsTrim (("lastAccessedAt: ".toList ++ m.lastAccessedAt).drop (lastKey.length + 1))
      = m.lastAccessedAt := by
    rw [hk, List.append_assoc]
    have hlen : lastKey.length + 1 = ((lastKey ++ [':']) : Str).length := by decide
    rw [hlen, List.drop_left]
    exact jsTrim_cons_space _ htr
  simp only [List.find?, hmiss1, hmiss2, hmiss3, hfind, Option.map_some', hval]

lemma noNlLine1 (m : MemoryMeta) : '\n' ∉ "priority: ".toList ++ priorityStr m.priority := by
  intro hmem
  rcases List.mem_append.mp hmem with h | h
  · revert h; decide
  · exact priorityStr_no_nl m.priority h

lemma noNlLine2 (m : MemoryMeta) (hc : '\n' ∉ m.createdAt) :
    '\n' ∉ "createdAt: ".toList ++ m.createdAt := by
  intro hmem
  rcases List.mem_append.mp hmem with h | h
  · revert h; decide
  · exact hc h

lemma noNlLine3 (m : MemoryMeta) (hu : '\n' ∉ m.updatedAt) :
    '\n' ∉ "updatedAt: ".toList ++ m.updatedAt := by
  intro hmem
  rcases List.mem_append.mp hmem with h | h
  · revert h; decide
  · exact hu h

lemma noNlLine4 (m : MemoryMeta) (hl : '\n' ∉ m.lastAccessedAt) :
    '\n' ∉ "lastAccessedAt: ".toList ++ m.lastAccessedAt := by
  intro hmem
  rcases List.mem_append.mp hmem with h | h
  · revert h; decide
  · exact hl h

lemma append_cons_assoc (a m t : Str) (x : Char) :
    (a ++ x :: m) ++ t = a ++ x :: (m ++ t) := by
  rw [List.append_assoc, List.cons_append]

lemma rawOf_no_early_close (m : MemoryMeta) (hc : '\n' ∉ m.createdAt)
    (hu : '\n' ∉ m.updatedAt) (hl : '\n' ∉ m.lastAccessedAt) :
    ¬ fmClose <:+: (rawOf m ++ fmClose.dropLast) := by
  intro hcon
  have hfc : fmClose = '\n' :: "---\n".toList := by decide
  have hfd : fmClose.dropLast = '\n' :: "---".toList := by decide
  obtain ⟨u0, v0, huv⟩ := hcon
  have hW : u0 ++ '\n' :: ("---\n".toList ++ v0) =
      ("priority: ".toList ++ priorityStr m.priority)
        ++ '\n' :: (("createdAt: ".toList ++ m.createdAt)
        ++ '\n' :: (("updatedAt: ".toList ++ m.updatedAt)
        ++ '\n' :: (("lastAccessedAt: ".toList ++ m.lastAccessedAt)
        ++ '\n' :: "---".toList))) := by
    have h1 : u0 ++ '\n' :: ("---\n".toList ++ v0) = u0 ++ fmClose ++ v0 := by
      rw [hfc, append_cons_assoc]
    rw [h1, huv, rawOf, hfd, append_cons_assoc, append_cons_assoc, append_cons_assoc]
  have hQhead : ("---\n".toList ++ v0) = '-' :: ("--\n".toList ++ v0) := by
    rw [show "---\n".toList = '-' :: "--\n".toList from rfl, List.cons_append]
  rcases append_cons_cases _ _ _ _ (noNlLine1 m) hW.symm with ⟨_, hB⟩ | ⟨a2, _, hR⟩
  · -- the occurrence would start at the createdAt line, whose head is not a dash
    rw [show "createdAt: ".toList = 'c' :: "reatedAt: ".toList from rfl, List.cons_append] at hB
    rw [hQhead] at hB
    exact absurd (List.cons.injEq _ _ _ _ ▸ hB).1 (by decide)
  rcases append_cons_cases _ _ _ _ (noNlLine2 m hc) hR with ⟨_, hB⟩ | ⟨a3, _, hR2⟩
  · rw [show "updatedAt: ".toList = 'u' :: "pdatedAt: ".toList from rfl, List.cons_append] at hB
    rw [hQhead] at hB
    exact absurd (List.cons.injEq _ _ _ _ ▸ hB.symm).1 (by decide)
  rcases append_cons_cases _ _ _ _ (noNlLine3 m hu) hR2 with ⟨_, hB⟩ | ⟨a4, _, hR3⟩
  · rw [show "lastAccessedAt: ".toList = 'l' :: "astAccessedAt: ".toList from rfl,
      List.cons_append] at hB
    rw [hQhead] at hB
    exact absurd (List.cons.injEq _ _ _ _ ▸ hB.symm).1 (by decide)
  rcases append_cons_cases _ _ _ _ (noNlLine4 m hl) hR3 with ⟨_, hB⟩ | ⟨a5, _, hR4⟩
  · -- the tail after the last newline is exactly three characters, too short
    have := congrArg List.length hB
    simp only [List.length_append] at this
    have h4 : ("---\n".toList : Str).length = 4 := by decide
    have h3 : ("---".toList : Str).length = 3 := by decide
    omega
  · -- there is no newline inside the final dashes
    have : '\n' ∈ "---".toList := by
      rw [hR4]
      exact List.mem_append.mpr (Or.inr (List.mem_cons_self _ _))
    revert this
    decide

lemma parsePriority_priorityStr (pr : Priority) :
    parsePriority (priorityStr pr) = some pr := by
  cases pr <;> decide

/-- C4 (amended): for metadata whose priority is one of P0/P1/P2 and whose
three timestamp fields are non-empty single-line strings without leading or
trailing whitespace, and for every body, parsing the serialized record
returns exactly the metadata and the body. -/
theorem C4_roundtrip (m : MemoryMeta) (b : Str)
    (hc : '\n' ∉ m.createdAt) (hu : '\n' ∉ m.updatedAt) (hl : '\n' ∉ m.lastAccessedAt)
    (hcne : m.createdAt ≠ []) (hune : m.updatedAt ≠ []) (hlne : m.lastAccessedAt ≠ [])
    (hct : jsTrim m.createdAt = m.createdAt) (hut : jsTrim m.updatedAt = m.updatedAt)
    (hlt : jsTrim m.lastAccessedAt = m.lastAccessedAt) :
    parseFrontmatter (serializeFrontmatter m b) = (some m, b) := by
  rw [serialize_eq, parseFrontmatter]
  rw [if_pos (isPrefixOf_append_self fmOpen (rawOf m ++ (fmClose ++ b)))]
  rw [List.drop_left]
  have hsf : splitFirst fmClose (rawOf m ++ (fmClose ++ b)) = some (rawOf m, b) := by
    rw [← List.append_assoc]
    exact splitFirst_append fmClose (rawOf m) b (by decide) (rawOf_no_early_close m hc hu hl)
  rw [hsf]
  simp only [getValue_rawOf_priority m hc hu hl, getValue_rawOf_created m hc hu hl hct,
    getValue_rawOf_updated m hc hu hl hut, getValue_rawOf_last m hc hu hl hlt]
  rw [if_neg (by simp [priorityStr_ne_nil m.priority, hcne, hune, hlne])]
  rw [parsePriority_priorityStr]

/-- C4 witness: the amended round-trip law evaluated on a concrete record. -/
theorem C4_roundtrip_witness :
    parseFrontmatter (serializeFrontmatter
        ⟨.P1, "2026-01-01T00:00:00.000Z".toList, "2026-01-02T00:00:00.000Z".toList,
          "2026-01-03T00:00:00.000Z".toList⟩ "# Title\n\nBody".toList)
      = (some ⟨.P1, "2026-01-01T00:00:00.000Z".toList, "2026-01-02T00:00:00.000Z".toList,
          "2026-01-03T00:00:00.000Z".toList⟩, "# Title\n\nBody".toList) :=
  C4_roundtrip _ _ (by decide) (by decide) (by decide) (by decide) (by decide) (by decide)
    (by decide) (by decide) (by decide)

/-- C4 counterexample: the claim as stated quantifies over all non-empty
single-line field values, but a value with surrounding whitespace is
trimmed by the decoder, so decode ∘ encode is not the identity on it. -/
theorem C4_roundtrip_counterexample :
    parseFrontmatter (serializeFrontmatter
        ⟨.P0, " x ".toList, "a".toList, "b".toList⟩ [])
      ≠ (some ⟨.P0, " x ".toList, "a".toList, "b".toList⟩, ([] : Str)) := by
  decide

/- ### C7: when is metadata present -/

lemma parsePriority_eq_some {p : Str} {pr : Priority} (h : parsePriority p = some pr) :
    p = "P0".toList ∨ p = "P1".toList ∨ p = "P2".toList := by
  by_cases h0 : p = "P0".toList
  · exact Or.inl h0
  by_cases h1 : p = "P1".toList
  · exact Or.inr (Or.inl h1)
  by_cases h2 : p = "P2".toList
  · exact Or.inr (Or.inr h2)
  rw [parsePriority, if_neg h0, if_neg h1, if_neg h2] at h
  exact absurd h (by simp)

lemma parsePriority_token {p : Str}
    (h : p = "P0".toList ∨ p = "P1".toList ∨ p = "P2".toList) :
    ∃ pr, parsePriority p = some pr := by
  rcases h with h | h | h <;> subst h
  · exact ⟨.P0, by decide⟩
  · exact ⟨.P1, by decide⟩
  · exact ⟨.P2, by decide⟩

/-- The specification's reading of "metadata present", written independently
of the parser:  the content starts with the marker line, the block extends
to the first occurrence of the closing marker, and inside the block each of
the four required keys has a first `key: value` line whose trimmed value is
non-empty, the priority value being one of the three valid tokens.  (After
the C7 counterexample, lines beyond the four required fields are allowed
and ignored.) -/
def hasMetaBlock (content : Str) : Prop :=
  ∃ raw rest, content = fmOpen ++ (raw ++ (fmClose ++ rest)) ∧
    ¬ fmClose <:+: (raw ++ fmClose.dropLast) ∧
    (∃ p, getValue raw priorityKey = some p ∧ p ≠ [] ∧
      (p = "P0".toList ∨ p = "P1".toList ∨ p = "P2".toList)) ∧
    (∃ c, getValue raw createdKey = some c ∧ c ≠ []) ∧
    (∃ u, getValue raw updatedKey = some u ∧ u ≠ []) ∧
    (∃ l, getValue raw lastKey = some l ∧ l ≠ [])

/-- C7 (amended): `parseFrontmatter` yields present metadata if and only if
the content starts with a marker-delimited block (up to the first closing
marker) in which each of the four required fields appears as a `key: value`
line with a non-empty value and the priority value is exactly one of
P0/P1/P2; a missing or empty field or an invalid priority rejects the whole
block, while content beyond the four required fields is ignored rather than
rejected. -/
theorem C7_meta_present_iff (content : Str) :
    (parseFrontmatter content).1.isSome ↔ hasMetaBlock content := by
  constructor
  · intro h
    rw [parseFrontmatter] at h
    by_cases hpre : fmOpen.isPrefixOf content = true
    · rw [if_pos hpre] at h
      split at h
      next => simp at h
      next raw rest hsf =>
        obtain ⟨hdec, hmin⟩ := splitFirst_some fmClose (by decide) _ raw rest hsf
        obtain ⟨t, ht⟩ := isPrefixOfTrue.mp hpre
        have hdrop : content.drop fmOpen.length = t := by
          rw [← ht, List.drop_left]
        have hcontent : content = fmOpen ++ (raw ++ (fmClose ++ rest)) := by
          rw [← ht]
          congr 1
          rw [← hdrop, hdec]
          simp [List.append_assoc]
        refine ⟨raw, rest, hcontent, hmin, ?_⟩
        split at h
        · rename_i p c u l hp hc2 hu2 hl2
          split at h
          · simp at h
          · rename_i hemp
            split at h
            · simp at h
            · rename_i pr hpp
              simp only [Bool.or_eq_true, decide_eq_true_eq, not_or] at hemp
              obtain ⟨⟨⟨hpne, hcne⟩, hune⟩, hlne⟩ := hemp
              exact ⟨⟨p, hp, hpne, parsePriority_eq_some hpp⟩, ⟨c, hc2, hcne⟩,
                ⟨u, hu2, hune⟩, ⟨l, hl2, hlne⟩⟩
        · simp at h
    · rw [if_neg hpre] at h
      simp at h
  · rintro ⟨raw, rest, hcontent, hmin, ⟨p, hp, hpne, hptok⟩, ⟨c, hc2, hcne⟩,
      ⟨u, hu2, hune⟩, ⟨l, hl2, hlne⟩⟩
    rw [hcontent, parseFrontmatter]
    rw [if_pos (isPrefixOf_append_self fmOpen (raw ++ (fmClose ++ rest)))]
    rw [List.drop_left]
    have hsf : splitFirst fmClose (raw ++ (fmClose ++ rest)) = some (raw, rest) := by
      rw [← List.append_assoc]
      exact splitFirst_append fmClose raw rest (by decide) hmin
    rw [hsf]
    simp only [hp, hc2, hu2, hl2]
    rw [if_neg (by simp [hpne, hcne, hune, hlne])]
    obtain ⟨pr, hpp⟩ := parsePriority_token hptok
    rw [hpp]
    simp

/-- C7 counterexample: a block containing a line beyond the four required
fields is accepted by `parseFrontmatter` (the extra line is ignored), while
the claim requires such a block to be rejected as absent metadata. -/
theorem C7_extra_field_accepted :
    (parseFrontmatter
        "---\npriority: P0\ncreatedAt: a\nupdatedAt: b\nlastAccessedAt: c\nextra: d\n---\nBODY".toList).1
      = some ⟨.P0, "a".toList, "b".toList, "c".toList⟩ := by
  decide

/- ### Filename Safety Gate (`validateFilename` / `getSafeFilepath`) -/

def mdExt : Str := ".md".toList

/-- Filename normalization: append the `.md` extension if absent. -/
def normalizeName (filename : Str) : Str :=
  if mdExt.isSuffixOf filename then filename else filename ++ mdExt

/-- A character allowed by the stem of the filename regex. -/
def isStemChar (c : Char) : Bool :=
  ('a' ≤ c && c ≤ 'z') || ('0' ≤ c && c ≤ '9') || c = '-'

/-- The regex test of `validateFilename`: the whole normalized name matches
one or more stem characters followed by the literal `.md`. -/
def matchesNameClass (nf : Str) : Bool :=
  mdExt.isSuffixOf nf && decide (4 ≤ nf.length) && (nf.take (nf.length - 3)).all isStemChar

/-- The `validateFilename` of mem.ts. -/
def validateFilename (filename : Str) : Bool :=
  let nf := normalizeName filename
  if strIncludes nf "..".toList || strIncludes nf "/".toList
      || strIncludes nf "\\".toList then false
  else matchesNameClass nf

/-- One step of POSIX path normalization as performed by `node:path.resolve`:
empty and `.` segments vanish, `..` pops, anything else pushes. -/
def normStep (acc : List Str) (seg : Str) : List Str :=
  if seg = [] ∨ seg = ['.'] then acc
  else if seg = ['.', '.'] then acc.dropLast
  else acc ++ [seg]

/-- Resolve the relative path string `p` against the absolute directory
`cwd` (given as its segment list): the segment list of `resolve(p)` in a
process whose working directory is `cwd`. -/
def resolveSegs (cwd : List Str) (p : Str) : List Str :=
  (splitOnChar '/' p).foldl normStep cwd

/-- Render an absolute segment list as a slash-separated path string. -/
def renderAbs (segs : List Str) : Str :=
  segs.foldl (fun acc s => acc ++ '/' :: s) []

def MEMORY_DIR : Str := "memories".toList

/-- The `getUserDir` of mem.ts; `join` written as slash concatenation. -/
def getUserDir (token : Str) : Str := MEMORY_DIR ++ '/' :: token

/-- The `getArchiveDir` of mem.ts. -/
def getArchiveDir (token : Str) : Str :=
  MEMORY_DIR ++ '/' :: token ++ '/' :: "archive".toList

/-- The `getSafeFilepath` of mem.ts, relative to the process `cwd`.  The final
containment check mirrors `resolvedFilepath.startsWith(resolvedUserDir)` on
the rendered resolved paths. -/
def getSafeFilepath (cwd : List Str) (token filename : Str) : Option Str :=
  if validateFilename filename then
    let userDir := getUserDir token
    let nf := normalizeName filename
    let filepath := userDir ++ '/' :: nf
    if (renderAbs (resolveSegs cwd userDir)).isPrefixOf
        (renderAbs (resolveSegs cwd filepath)) then some filepath
    else none
  else none

/-- The `getSafeArchiveFilepath` of mem.ts. -/
def getSafeArchiveFilepath (cwd : List Str) (token filename : Str) : Option Str :=
  if validateFilename filename then
    let archiveDir := getArchiveDir token
    let nf := normalizeName filename
    let filepath := archiveDir ++ '/' :: nf
    if (renderAbs (resolveSegs cwd archiveDir)).isPrefixOf
        (renderAbs (resolveSegs cwd filepath)) then some filepath
    else none
  else none

/-- The character class from the specification, stated structurally:
lowercase alphanumerics and hyphens followed by the fixed extension. -/
def SpecNameClass (nf : Str) : Prop :=
  ∃ stem, nf = stem ++ mdExt ∧ stem ≠ [] ∧ ∀ c ∈ stem, isStemChar c = true

lemma matchesNameClass_iff (nf : Str) : matchesNameClass nf = true ↔ SpecNameClass nf := by
  constructor
  · intro h
    simp only [matchesNameClass, Bool.and_eq_true, decide_eq_true_eq] at h
    obtain ⟨⟨hsuf, hlen⟩, hall⟩ := h
    obtain ⟨stem, hst⟩ := List.isSuffixOf_iff_suffix.mp hsuf
    refine ⟨stem, hst.symm, ?_, ?_⟩
    · intro hnil
      rw [hnil] at hst
      simp only [List.nil_append] at hst
      rw [← hst] at hlen
      revert hlen
      decide
    · intro c hc
      have hlen3 : nf.length - 3 = stem.length := by
        rw [← hst]
        simp only [List.length_append]
        have : (mdExt : Str).length = 3 := by decide
        omega
      have htake : nf.take (nf.length - 3) = stem := by
        rw [hlen3, ← hst, List.take_left]
      rw [htake] at hall
      exact List.all_eq_true.mp hall c hc
  · rintro ⟨stem, rfl, hne, hall⟩
    simp only [matchesNameClass, Bool.and_eq_true, decide_eq_true_eq]
    refine ⟨⟨List.isSuffixOf_iff_suffix.mpr ⟨stem, rfl⟩, ?_⟩, ?_⟩
    · have h1 : 1 ≤ stem.length := List.length_pos.mpr hne
      have h3 : (mdExt : Str).length = 3 := by decide
      simp only [List.length_append]
      omega
    · have hlen3 : (stem ++ mdExt).length - 3 = stem.length := by
        have h3 : (mdExt : Str).length = 3 := by decide
        simp only [List.length_append]
        omega
      rw [hlen3, List.take_left]
      exact List.all_eq_true.mpr hall

lemma singleton_infix_mem {c : Char} {s : Str} : c ∈ s ↔ [c] <:+: s := by
  constructor
  · intro h
    obtain ⟨u, v, huv⟩ := List.append_of_mem h
    exact ⟨u, v, by rw [huv]; simp⟩
  · rintro ⟨u, v, rfl⟩
    simp

lemma strIncludes_iff (s pat : Str) : strIncludes s pat = true ↔ pat <:+: s := by
  induction s with
  | nil =>
    simp only [strIncludes, decide_eq_true_eq]
    rw [infixOfNil]
  | cons c rest ih =>
    simp only [strIncludes, Bool.or_eq_true, ih, infixOfConsIff]
    constructor
    · rintro (h | h)
      · exact Or.inl (isPrefixOfTrue.mp h)
      · exact Or.inr h
    · rintro (h | h)
      · exact Or.inl (isPrefixOfTrue.mpr h)
      · exact Or.inr h

lemma splitOnChar_ne_nil (sep : Char) (s : Str) : splitOnChar sep s ≠ [] := by
  cases s with
  | nil => simp [splitOnChar]
  | cons c rest =>
    rw [splitOnChar]
    by_cases hc : c = sep
    · simp [hc]
    · rw [if_neg hc]
      match splitOnChar sep rest with
      | [] => simp
      | l :: ls => simp

lemma splitOnChar_append (sep : Char) (a b : Str) :
    splitOnChar sep (a ++ sep :: b) = splitOnChar sep a ++ splitOnChar sep b := by
  induction a with
  | nil => simp [splitOnChar]
  | cons c rest ih =>
    by_cases hc : c = sep
    · subst hc
      rw [List.cons_append, splitOnChar, if_pos rfl, ih, splitOnChar, if_pos rfl]
      rfl
    · rw [List.cons_append, splitOnChar, if_neg hc, ih]
      match hres : splitOnChar sep rest with
      | [] => exact absurd hres (splitOnChar_ne_nil sep rest)
      | l :: ls =>
        rw [splitOnChar, if_neg hc, hres]
        rfl

lemma resolveSegs_append_clean (cwd : List Str) (d nf : Str)
    (hslash : '/' ∉ nf) (h0 : nf ≠ []) (h1 : nf ≠ ['.']) (h2 : nf ≠ ['.', '.']) :
    resolveSegs cwd (d ++ '/' :: nf) = resolveSegs cwd d ++ [nf] := by
  rw [resolveSegs, splitOnChar_append, splitOnChar_not_mem hslash, List.foldl_append]
  rw [List.foldl_cons, List.foldl_nil]
  rw [normStep, if_neg (by simp [h0, h1]), if_neg h2]
  rfl

lemma validate_true_facts (filename : Str) (h : validateFilename filename = true) :
    matchesNameClass (normalizeName filename) = true ∧
    ¬ "..".toList <:+: normalizeName filename ∧
    '/' ∉ normalizeName filename ∧ '\\' ∉ normalizeName filename := by
  simp only [validateFilename] at h
  by_cases hc : (strIncludes (normalizeName filename) "..".toList
      || strIncludes (normalizeName filename) "/".toList
      || strIncludes (normalizeName filename) "\\".toList) = true
  · rw [if_pos hc] at h
    exact absurd h (by simp)
  · rw [if_neg hc] at h
    simp only [Bool.or_eq_true, not_or] at hc
    obtain ⟨⟨hdd, hsl⟩, hbs⟩ := hc
    refine ⟨h, ?_, ?_, ?_⟩
    · intro hcon
      exact hdd ((strIncludes_iff _ _).mpr hcon)
    · intro hcon
      exact hsl ((strIncludes_iff _ _).mpr
        (by rw [show ("/".toList : Str) = ['/'] from rfl]
            exact singleton_infix_mem.mp hcon))
    · intro hcon
      exact hbs ((strIncludes_iff _ _).mpr
        (by rw [show ("\\".toList : Str) = ['\\'] from rfl]
            exact singleton_infix_mem.mp hcon))

lemma matchesNameClass_length {nf : Str} (h : matchesNameClass nf = true) : 4 ≤ nf.length := by
  simp only [matchesNameClass, Bool.and_eq_true, decide_eq_true_eq] at h
  exact h.1.2

lemma infix_normalizeName {pat filename : Str} (h : pat <:+: filename) :
    pat <:+: normalizeName filename := by
  rw [normalizeName]
  by_cases hs : mdExt.isSuffixOf filename = true
  · rw [if_pos hs]
    exact h
  · rw [if_neg hs]
    exact h.trans ⟨[], mdExt, by simp⟩

/-- C1: for every token and every filename that contains `..`, `/` or `\`,
or whose normalized form does not match the restricted character class,
`getSafeFilepath` returns none (no path is produced); and whenever it does
return a path, the path resolved against any working directory is a
descendant (in fact a direct child) of the resolved user directory. -/
theorem C1_safety_gate :
    (∀ cwd token filename,
      (strIncludes filename "..".toList = true ∨ strIncludes filename "/".toList = true ∨
        strIncludes filename "\\".toList = true ∨ ¬ SpecNameClass (normalizeName filename)) →
      getSafeFilepath cwd token filename = none) ∧
    (∀ cwd token filename p, getSafeFilepath cwd token filename = some p →
      resolveSegs cwd p = resolveSegs cwd (getUserDir token) ++ [normalizeName filename]) := by
  constructor
  · intro cwd token filename hbad
    have hv : validateFilename filename = false := by
      by_contra hcon
      have hv2 : validateFilename filename = true := by
        revert hcon
        cases validateFilename filename <;> simp
      obtain ⟨hclass, hdd, hsl, hbs⟩ := validate_true_facts filename hv2
      rcases hbad with hb | hb | hb | hb
      · exact hdd (infix_normalizeName ((strIncludes_iff _ _).mp hb))
      · apply hsl
        have : ('/' : Char) ∈ filename := by
          have := (strIncludes_iff _ _).mp hb
          rw [show ("/".toList : Str) = ['/'] from rfl] at this
          exact singleton_infix_mem.mpr this
        have h2 : ['/'] <:+: normalizeName filename :=
          infix_normalizeName (singleton_infix_mem.mp this)
        exact singleton_infix_mem.mpr h2
      · apply hbs
        have : ('\\' : Char) ∈ filename := by
          have := (strIncludes_iff _ _).mp hb
          rw [show ("\\".toList : Str) = ['\\'] from rfl] at this
          exact singleton_infix_mem.mpr this
        have h2 : ['\\'] <:+: normalizeName filename :=
          infix_normalizeName (singleton_infix_mem.mp this)
        exact singleton_infix_mem.mpr h2
      · exact hb ((matchesNameClass_iff _).mp hclass)
    rw [getSafeFilepath, if_neg (by rw [hv]; simp)]
  · intro cwd token filename p hp
    simp only [getSafeFilepath] at hp
    by_cases hv : validateFilename filename = true
    · rw [if_pos hv] at hp
      by_cases hs : ((renderAbs (resolveSegs cwd (getUserDir token))).isPrefixOf
          (renderAbs (resolveSegs cwd (getUserDir token ++ '/' :: normalizeName filename)))) = true
      · rw [if_pos hs] at hp
        simp only [Option.some.injEq] at hp
        subst hp
        obtain ⟨hclass, hdd, hsl, hbs⟩ := validate_true_facts filename hv
        have hlen := matchesNameClass_length hclass
        apply resolveSegs_append_clean
        · exact hsl
        · intro hcon
          rw [hcon] at hlen
          revert hlen
          decide
        · intro hcon
          rw [hcon] at hlen
          revert hlen
          decide
        · intro hcon
          rw [hcon] at hlen
          revert hlen
          decide
      · rw [if_neg hs] at hp
        exact absurd hp (by simp)
    · rw [if_neg hv] at hp
      exact absurd hp (by simp)

/-- C1 witness: the gate rejecting a traversal attempt and, on an accepted
name, producing a path resolving to a child of the user directory. -/
theorem C1_safety_gate_witness :
    getSafeFilepath [] "tok".toList "../../etc/passwd".toList = none ∧
    resolveSegs ["home".toList] (getUserDir "tok".toList ++ '/' :: normalizeName "note".toList)
      = resolveSegs ["home".toList] (getUserDir "tok".toList) ++ [normalizeName "note".toList] :=
  ⟨C1_safety_gate.1 [] "tok".toList "../../etc/passwd".toList (Or.inl (by decide)),
   C1_safety_gate.2 ["home".toList] "tok".toList "note".toList _ (by decide)⟩

/- ### Record store operations -/

/-- A hot record as enumerated by `readMemories`: filename and content. -/
structure MemFile where
  file : Str
  content : Str
deriving DecidableEq

/-- The `extractTitle` of mem.ts: first markdown H1 line of the body, trimmed,
with a fixed placeholder when absent. -/
def extractTitle (content : Str) : Str :=
  match (splitOnChar '\n' (parseFrontmatter content).2).find?
      (fun l => ("# ".toList).isPrefixOf l) with
  | some l => jsTrim (l.drop 2)
  | none => "Untitled".toList

/-- The `formatMemory` of mem.ts. -/
def formatMemory (m : MemFile) : Str :=
  "### Memory\n**filename:** ".toList ++ m.file
    ++ "\n**title:** ".toList ++ extractTitle m.content
    ++ "\n---\n".toList ++ m.content

/-- The `ensureFrontmatter` of mem.ts: parse, or migrate a legacy record.  The
`createdAt` inference (`inferCreatedAt`: legacy footer regex, file mtime,
`Date` parsing) is the oracle `inferC`; `nowIso` is the current time taken
inside the function.  Returns the meta and body together with the file
content after the call (a migrated record is rewritten in canonical form,
an already-tagged record is left untouched). -/
def ensureFrontmatter (inferC : Str → Str) (nowIso : Str) (content : Str) :
    MemoryMeta × Str × Str :=
  match parseFrontmatter content with
  | (some meta, body) => (meta, body, content)
  | (none, _) =>
    let createdAt := inferC content
    let newMeta : MemoryMeta := ⟨.P2, createdAt, createdAt, nowIso⟩
    (newMeta, content, serializeFrontmatter newMeta content)

def isLowerAlnum (c : Char) : Bool :=
  ('a' ≤ c && c ≤ 'z') || ('0' ≤ c && c ≤ '9')

/-- Helper for `collapseRuns`: the flag records whether the previous
character was part of a non-alphanumeric run (whose hyphen has already been
emitted). -/
def collapseAux : Bool → Str → Str
  | _, [] => []
  | inRun, c :: rest =>
    if isLowerAlnum c then c :: collapseAux false rest
    else if inRun then collapseAux true rest
    else '-' :: collapseAux true rest

/-- JS `replace(/[^a-z0-9]+/g, '-')`: each maximal run of characters outside
the class becomes a single hyphen. -/
def collapseRuns (s : Str) : Str := collapseAux false s

/-- JS `replace(/^-+|-+$/g, '')`: strip leading and trailing hyphens. -/
def trimHyphens (s : Str) : Str :=
  ((s.dropWhile (fun c => c = '-')).reverse.dropWhile (fun c => c = '-')).reverse

/-- The filename derivation in `writeMemory`: lowercase the title, collapse
non-alphanumeric runs to hyphens, trim hyphens, append the extension. -/
def slugify (title : Str) : Str :=
  trimHyphens (collapseRuns (title.map Char.toLower)) ++ mdExt

/-- The `writeMemory` of mem.ts: derive the filename from the title, build the
record and write it, silently overwriting any record of the same name.
Returns the filename and the new store. -/
def writeMemory (nowIso : Str) (store : List (Str × Str)) (title content : Str)
    (priority : Priority := .P2) : Str × List (Str × Str) :=
  let filename := slugify title
  let meta : MemoryMeta := ⟨priority, nowIso, nowIso, nowIso⟩
  let body := "# ".toList ++ title ++ "\n\n".toList ++ content
    ++ "\n\n---\n*Created: ".toList ++ nowIso ++ ['*']
  (filename, setStore store filename (serializeFrontmatter meta body))

/-- The `updateMemory` of mem.ts.  The store is the user's hot directory keyed
by filename; the path returned by the Safety Gate addresses the entry under
the normalized filename.  The intermediate migration write performed by
`ensureFrontmatter` on a legacy record is immediately overwritten by the
final write, so only the final content appears in the store. -/
def updateMemory (cwd : List Str) (inferC : Str → Str) (nowIso : Str)
    (store : List (Str × Str)) (token filename title content : Str)
    (priority : Option Priority) : Bool × List (Str × Str) :=
  match getSafeFilepath cwd token filename with
  | none => (false, store)
  | some _ =>
    let nf := normalizeName filename
    match getStore store nf with
    | none => (false, store)
    | some existing =>
      let em := (ensureFrontmatter inferC nowIso existing).1
      let meta : MemoryMeta :=
        { em with
            updatedAt := nowIso,
            priority := match priority with | some p => p | none => em.priority }
      let body := "# ".toList ++ title ++ "\n\n".toList ++ content
        ++ "\n\n---\n*Updated: ".toList ++ nowIso ++ ['*']
      (true, setStore store nf (serializeFrontmatter meta body))

/-- The `deleteMemory` of mem.ts. -/
def deleteMemory (cwd : List Str) (store : List (Str × Str)) (token filename : Str) :
    Bool × List (Str × Str) :=
  match getSafeFilepath cwd token filename with
  | none => (false, store)
  | some _ =>
    let nf := normalizeName filename
    match getStore store nf with
    | none => (false, store)
    | some _ => (true, delStore store nf)

/-- The `archiveMemory` of mem.ts: move a hot record into the archive store. -/
def archiveMemory (cwd : List Str) (hot archive : List (Str × Str))
    (token filename : Str) : Bool × List (Str × Str) × List (Str × Str) :=
  match getSafeFilepath cwd token filename with
  | none => (false, hot, archive)
  | some _ =>
    let nf := normalizeName filename
    match getStore hot nf with
    | none => (false, hot, archive)
    | some content =>
      match getSafeArchiveFilepath cwd token filename with
      | none => (false, hot, archive)
      | some _ => (true, delStore hot nf, setStore archive nf content)

/-- C8: `updateMemory` returns false and writes nothing when the Safety
Gate rejects the filename or the target record does not exist; on an
existing record with well-formed metadata it succeeds, sets `updatedAt` to
the current time, preserves `createdAt` and `lastAccessedAt`, and changes
the priority only when one is explicitly supplied. -/
theorem C8_update_behavior (cwd : List Str) (inferC : Str → Str) (nowIso : Str)
    (store : List (Str × Str)) (token filename title content : Str)
    (priority : Option Priority) :
    (getSafeFilepath cwd token filename = none →
      updateMemory cwd inferC nowIso store token filename title content priority
        = (false, store)) ∧
    (∀ p0, getSafeFilepath cwd token filename = some p0 →
      getStore store (normalizeName filename) = none →
      updateMemory cwd inferC nowIso store token filename title content priority
        = (false, store)) ∧
    (∀ p0 existing m b, getSafeFilepath cwd token filename = some p0 →
      getStore store (normalizeName filename) = some existing →
      parseFrontmatter existing = (some m, b) →
      updateMemory cwd inferC nowIso store token filename title content priority
        = (true, setStore store (normalizeName filename)
            (serializeFrontmatter
              ⟨(match priority with | some p => p | none => m.priority),
                m.createdAt, nowIso, m.lastAccessedAt⟩
              ("# ".toList ++ title ++ "\n\n".toList ++ content
                ++ "\n\n---\n*Updated: ".toList ++ nowIso ++ ['*'])))) := by
  refine ⟨?_, ?_, ?_⟩
  · intro hg
    simp only [updateMemory, hg]
  · intro p0 hg hget
    simp only [updateMemory, hg, hget]
  · intro p0 existing m b hg hget hparse
    simp only [updateMemory, hg, hget, ensureFrontmatter, hparse]

/-- C8 witness: a concrete successful update preserving `createdAt` and
`lastAccessedAt`, and a concrete Safety-Gate rejection. -/
theorem C8_update_behavior_witness :
    updateMemory [] (fun _ => []) "N".toList
        [("note.md".toList,
          serializeFrontmatter ⟨.P1, "a".toList, "b".toList, "c".toList⟩ "# T".toList)]
        "tok".toList "note".toList "T2".toList "C2".toList none
      = (true, setStore
          [("note.md".toList,
            serializeFrontmatter ⟨.P1, "a".toList, "b".toList, "c".toList⟩ "# T".toList)]
          (normalizeName "note".toList)
          (serializeFrontmatter ⟨.P1, "a".toList, "N".toList, "c".toList⟩
            ("# ".toList ++ "T2".toList ++ "\n\n".toList ++ "C2".toList
              ++ "\n\n---\n*Updated: ".toList ++ "N".toList ++ ['*']))) ∧
    updateMemory [] (fun _ => []) "N".toList []
        "tok".toList "../x".toList "T".toList "C".toList none
      = (false, []) :=
  ⟨(C8_update_behavior [] (fun _ => []) "N".toList
      [("note.md".toList,
        serializeFrontmatter ⟨.P1, "a".toList, "b".toList, "c".toList⟩ "# T".toList)]
      "tok".toList "note".toList "T2".toList "C2".toList none).2.2
      (getUserDir "tok".toList ++ '/' :: normalizeName "note".toList)
      (serializeFrontmatter ⟨.P1, "a".toList, "b".toList, "c".toList⟩ "# T".toList)
      ⟨.P1, "a".toList, "b".toList, "c".toList⟩ "# T".toList
      (by decide) (by decide) (by decide),
   (C8_update_behavior [] (fun _ => []) "N".toList []
      "tok".toList "../x".toList "T".toList "C".toList none).1 (by decide)⟩

lemma collapseAux_all_non_alnum {s : Str}
    (h : ∀ c ∈ s, isLowerAlnum c = false) : collapseAux true s = [] := by
  induction s with
  | nil => rfl
  | cons c rest ih =>
    have hc := h c (List.mem_cons_self c rest)
    rw [collapseAux, if_neg (by simp [hc]), if_pos rfl]
    exact ih (fun d hd => h d (List.mem_cons_of_mem c hd))

lemma slugify_no_alnum {title : Str}
    (h : ∀ c ∈ title.map Char.toLower, isLowerAlnum c = false) :
    slugify title = mdExt := by
  rw [slugify]
  have hmain : trimHyphens (collapseRuns (title.map Char.toLower)) = [] := by
    match hs : title.map Char.toLower with
    | [] => rw [collapseRuns]; rfl
    | c :: rest =>
      rw [hs] at h
      have hc := h c (List.mem_cons_self c rest)
      rw [collapseRuns, collapseAux, if_neg (by simp [hc]), if_neg (by simp)]
      rw [collapseAux_all_non_alnum (fun d hd => h d (List.mem_cons_of_mem c hd))]
      rfl
  rw [hmain, List.nil_append]

/-- C9: a title with no lowercase-alphanumeric character after lowercasing
slugifies to the bare extension: `writeMemory` succeeds, returns the
filename `.md` and creates that record in the hot store, yet `.md` fails
the Safety Gate's character-class check, so every subsequent
`updateMemory`, `deleteMemory` or `archiveMemory` on the returned filename
fails with `false` and leaves the stores unchanged. -/
theorem C9_untouchable_record (title : Str)
    (h : ∀ c ∈ title.map Char.toLower, isLowerAlnum c = false)
    (nowIso content : Str) (store : List (Str × Str)) (priority : Priority) :
    (writeMemory nowIso store title content priority).1 = mdExt ∧
    getStore (writeMemory nowIso store title content priority).2 mdExt
      = some (serializeFrontmatter ⟨priority, nowIso, nowIso, nowIso⟩
          ("# ".toList ++ title ++ "\n\n".toList ++ content
            ++ "\n\n---\n*Created: ".toList ++ nowIso ++ ['*'])) ∧
    validateFilename mdExt = false ∧
    (∀ cwd inferC nowIso2 store2 token title2 content2 pr2,
      updateMemory cwd inferC nowIso2 store2 token mdExt title2 content2 pr2
        = (false, store2)) ∧
    (∀ cwd store2 token, deleteMemory cwd store2 token mdExt = (false, store2)) ∧
    (∀ cwd hot archive token,
      archiveMemory cwd hot archive token mdExt = (false, hot, archive)) := by
  have hslug : slugify title = mdExt := slugify_no_alnum h
  have hgate : ∀ cwd token, getSafeFilepath cwd token mdExt = none := by
    intro cwd token
    rw [getSafeFilepath, if_neg (by decide)]
  refine ⟨?_, ?_, by decide, ?_, ?_, ?_⟩
  · rw [writeMemory]
    exact hslug
  · simp only [writeMemory, hslug]
    have hset : ∀ (st : List (Str × Str)) v, getStore (setStore st mdExt v) mdExt = some v := by
      intro st v
      induction st with
      | nil => simp [setStore, getStore]
      | cons e rest ih =>
        obtain ⟨k1, v1⟩ := e
        by_cases hk : k1 = mdExt
        · simp [setStore, hk, getStore]
        · simp only [setStore, if_neg hk]
          simp only [getStore, List.find?] at ih ⊢
          rw [show (decide (k1 = mdExt)) = false from by simp [hk]]
          exact ih
    exact hset store _
  · intro cwd inferC nowIso2 store2 token title2 content2 pr2
    simp only [updateMemory, hgate cwd token]
  · intro cwd store2 token
    simp only [deleteMemory, hgate cwd token]
  · intro cwd hot archive token
    simp only [archiveMemory, hgate cwd token]

/-- C9 witness: the behaviour on the concrete title consisting only of
punctuation. -/
theorem C9_untouchable_record_witness :
    (writeMemory "N".toList [] "!!!".toList "body".toList Priority.P2).1 = mdExt ∧
    getStore (writeMemory "N".toList [] "!!!".toList "body".toList Priority.P2).2 mdExt
      = some (serializeFrontmatter ⟨Priority.P2, "N".toList, "N".toList, "N".toList⟩
          ("# ".toList ++ "!!!".toList ++ "\n\n".toList ++ "body".toList
            ++ "\n\n---\n*Created: ".toList ++ "N".toList ++ ['*'])) ∧
    validateFilename mdExt = false ∧
    (∀ cwd inferC nowIso2 store2 token title2 content2 pr2,
      updateMemory cwd inferC nowIso2 store2 token mdExt title2 content2 pr2
        = (false, store2)) ∧
    (∀ cwd store2 token, deleteMemory cwd store2 token mdExt = (false, store2)) ∧
    (∀ cwd hot archive token,
      archiveMemory cwd hot archive token mdExt = (false, hot, archive)) :=
  C9_untouchable_record "!!!".toList (by decide) "N".toList "body".toList [] Priority.P2

/- ### A stable sort usable in computation -/

/-- Stable insertion of `x` into a sorted list: `x` passes over exactly the
elements strictly smaller under `le`, so an earlier-listed element never
jumps over a tied later one. -/
def insertLe {α : Type} (le : α → α → Bool) (x : α) : List α → List α
  | [] => [x]
  | y :: ys => if le y x && !le x y then y :: insertLe le x ys else x :: y :: ys

/-- Stable sort by a boolean total preorder.  ECMAScript `Array.sort` with a
consistent comparator is specified to be a stable sort, whose result is
unique, so stable insertion sort models it exactly. -/
def stableSortBy {α : Type} (le : α → α → Bool) : List α → List α
  | [] => []
  | x :: xs => insertLe le x (stableSortBy le xs)

lemma mem_insertLe {α : Type} {le : α → α → Bool} {x a : α} :
    ∀ {l : List α}, a ∈ insertLe le x l ↔ a = x ∨ a ∈ l := by
  intro l
  induction l with
  | nil => simp [insertLe]
  | cons y ys ih =>
    rw [insertLe]
    by_cases hc : (le y x && !le x y) = true
    · rw [if_pos hc]
      simp only [List.mem_cons, ih]
      tauto
    · rw [if_neg hc]
      simp only [List.mem_cons]

lemma length_insertLe {α : Type} (le : α → α → Bool) (x : α) :
    ∀ (l : List α), (insertLe le x l).length = l.length + 1 := by
  intro l
  induction l with
  | nil => rfl
  | cons y ys ih =>
    rw [insertLe]
    by_cases hc : (le y x && !le x y) = true
    · rw [if_pos hc]
      simp [ih]
    · rw [if_neg hc]
      simp

lemma mem_stableSortBy {α : Type} {le : α → α → Bool} {a : α} :
    ∀ {l : List α}, a ∈ stableSortBy le l ↔ a ∈ l := by
  intro l
  induction l with
  | nil => simp [stableSortBy]
  | cons y ys ih =>
    rw [stableSortBy, mem_insertLe]
    simp [ih]

lemma length_stableSortBy {α : Type} (le : α → α → Bool) :
    ∀ (l : List α), (stableSortBy le l).length = l.length := by
  intro l
  induction l with
  | nil => rfl
  | cons y ys ih =>
    rw [stableSortBy, length_insertLe, ih]
    rfl

lemma pairwise_insertLe {α : Type} {le : α → α → Bool}
    (htrans : ∀ a b c, le a b = true → le b c = true → le a c = true)
    (htotal : ∀ a b, (le a b || le b a) = true)
    {l : List α} (x : α) (hl : l.Pairwise (fun a b => le a b = true)) :
    (insertLe le x l).Pairwise (fun a b => le a b = true) := by
  induction l with
  | nil => simp [insertLe]
  | cons y ys ih =>
    rw [insertLe]
    rw [List.pairwise_cons] at hl
    obtain ⟨hy, hys⟩ := hl
    by_cases hc : (le y x && !le x y) = true
    · rw [if_pos hc]
      rw [List.pairwise_cons]
      refine ⟨?_, ih hys⟩
      intro z hz
      rcases mem_insertLe.mp hz with rfl | hz2
      · exact (Bool.and_eq_true _ _).mp hc |>.1
      · exact hy z hz2
    · rw [if_neg hc]
      have hxy : le x y = true := by
        have htot : le x y = true ∨ le y x = true := by
          have := htotal x y
          simpa using this
        rcases htot with h | h
        · exact h
        · by_cases hb : le x y = true
          · exact hb
          · exfalso
            apply hc
            rw [Bool.and_eq_true]
            have hxyf : le x y = false := by
              cases hxv : le x y
              · rfl
              · exact absurd hxv hb
            refine ⟨h, ?_⟩
            rw [hxyf]
            rfl
      rw [List.pairwise_cons]
      refine ⟨?_, ?_⟩
      · intro z hz
        rcases List.mem_cons.mp hz with rfl | hz2
        · exact hxy
        · exact htrans x y z hxy (hy z hz2)
      · rw [List.pairwise_cons]
        exact ⟨hy, hys⟩

lemma pairwise_stableSortBy {α : Type} (le : α → α → Bool)
    (htrans : ∀ a b c, le a b = true → le b c = true → le a c = true)
    (htotal : ∀ a b, (le a b || le b a) = true) :
    ∀ (l : List α), (stableSortBy le l).Pairwise (fun a b => le a b = true) := by
  intro l
  induction l with
  | nil => simp [stableSortBy]
  | cons y ys ih =>
    rw [stableSortBy]
    exact pairwise_insertLe htrans htotal y ih

/- ### Eviction engine (`evictMemories`) -/

def P2_MAX_AGE_MS : Int := 30 * 24 * 60 * 60 * 1000

def P1_MAX_AGE_MS : Int := 90 * 24 * 60 * 60 * 1000

def DEFAULT_MAX_HOT_COUNT : Nat := 50

structure EvictResult where
  archived : List Str
  kept : List Str
  dryRun : Bool
deriving DecidableEq

/-- The per-record classification loop of `evictMemories`: a P0 record
always stays; a P2 (resp. P1) record whose age exceeds its threshold is
archived; everything else stays.  Returns archived filenames and remaining
records, both in enumeration order.  `toTime` is the
`new Date(s).getTime()` oracle, `now` is `Date.now()`. -/
def evictPhase1 (toTime : Str → Int) (now : Int) :
    List (Str × MemoryMeta) → List Str × List (Str × MemoryMeta)
  | [] => ([], [])
  | (f, m) :: rest =>
    let acc := evictPhase1 toTime now rest
    if m.priority = .P0 then (acc.1, (f, m) :: acc.2)
    else if m.priority = .P2 ∧ now - toTime m.lastAccessedAt > P2_MAX_AGE_MS then
      (f :: acc.1, acc.2)
    else if m.priority = .P1 ∧ now - toTime m.lastAccessedAt > P1_MAX_AGE_MS then
      (f :: acc.1, acc.2)
    else (acc.1, (f, m) :: acc.2)

def lastMs (toTime : Str → Int) (r : Str × MemoryMeta) : Int :=
  toTime r.2.lastAccessedAt

/-- The `evictMemories` of mem.ts over the already-parsed hot records (the
`.md` files in enumeration order, each with its ensured metadata).  After
the age-based phase, if the remaining count still exceeds `maxHotCount`,
the remaining P2 records and then the remaining P1 records are sorted by
ascending `lastAccessedAt` (stable sort, as ECMAScript `Array.sort`) and
archived oldest-first, P2 before P1, until the count fits.  `archived`
lists every name pushed (with `dryRun` nothing is moved, the same names are
reported); `kept` is the complement in enumeration order. -/
def evictMemories (toTime : Str → Int) (now : Int) (files : List (Str × MemoryMeta))
    (dryRun : Bool := false) (maxHotCount : Nat := DEFAULT_MAX_HOT_COUNT) : EvictResult :=
  let p1 := evictPhase1 toTime now files
  let archived :=
    if maxHotCount < p1.2.length then
      let p2s := (p1.2.filter (fun r => decide (r.2.priority = .P2)))
        |> stableSortBy (fun a b => decide (lastMs toTime a ≤ lastMs toTime b))
      let p1s := (p1.2.filter (fun r => decide (r.2.priority = .P1)))
        |> stableSortBy (fun a b => decide (lastMs toTime a ≤ lastMs toTime b))
      p1.1 ++ ((p2s ++ p1s).take (p1.2.length - maxHotCount)).map Prod.fst
    else p1.1
  { archived := archived,
    kept := (files.map Prod.fst).filter (fun f => decide (f ∉ archived)),
    dryRun := dryRun }

lemma evictPhase1_archived_mem (toTime : Str → Int) (now : Int) :
    ∀ {files : List (Str × MemoryMeta)} {f : Str},
      f ∈ (evictPhase1 toTime now files).1 →
      ∃ m, (f, m) ∈ files ∧ m.priority ≠ .P0 := by
  intro files
  induction files with
  | nil => intro f h; simp [evictPhase1] at h
  | cons e rest ih =>
    obtain ⟨g, m⟩ := e
    intro f h
    rw [evictPhase1] at h
    by_cases h0 : m.priority = .P0
    · rw [if_pos h0] at h
      obtain ⟨m2, hm2, hp2⟩ := ih h
      exact ⟨m2, List.mem_cons_of_mem _ hm2, hp2⟩
    · rw [if_neg h0] at h
      by_cases h2 : m.priority = .P2 ∧ now - toTime m.lastAccessedAt > P2_MAX_AGE_MS
      · rw [if_pos h2] at h
        rcases List.mem_cons.mp h with rfl | h
        · exact ⟨m, List.mem_cons_self _ _, h0⟩
        · obtain ⟨m2, hm2, hp2⟩ := ih h
          exact ⟨m2, List.mem_cons_of_mem _ hm2, hp2⟩
      · rw [if_neg h2] at h
        by_cases h1 : m.priority = .P1 ∧ now - toTime m.lastAccessedAt > P1_MAX_AGE_MS
        · rw [if_pos h1] at h
          rcases List.mem_cons.mp h with rfl | h
          · exact ⟨m, List.mem_cons_self _ _, h0⟩
          · obtain ⟨m2, hm2, hp2⟩ := ih h
            exact ⟨m2, List.mem_cons_of_mem _ hm2, hp2⟩
        · rw [if_neg h1] at h
          obtain ⟨m2, hm2, hp2⟩ := ih h
          exact ⟨m2, List.mem_cons_of_mem _ hm2, hp2⟩

lemma evictPhase1_remaining_sub (toTime : Str → Int) (now : Int) :
    ∀ {files : List (Str × MemoryMeta)} {r : Str × MemoryMeta},
      r ∈ (evictPhase1 toTime now files).2 → r ∈ files := by
  intro files
  induction files with
  | nil => intro r h; simp [evictPhase1] at h
  | cons e rest ih =>
    obtain ⟨g, m⟩ := e
    intro r h
    rw [evictPhase1] at h
    by_cases h0 : m.priority = .P0
    · rw [if_pos h0] at h
      rcases List.mem_cons.mp h with rfl | h
      · exact List.mem_cons_self _ _
      · exact List.mem_cons_of_mem _ (ih h)
    · rw [if_neg h0] at h
      by_cases h2 : m.priority = .P2 ∧ now - toTime m.lastAccessedAt > P2_MAX_AGE_MS
      · rw [if_pos h2] at h
        exact List.mem_cons_of_mem _ (ih h)
      · rw [if_neg h2] at h
        by_cases h1 : m.priority = .P1 ∧ now - toTime m.lastAccessedAt > P1_MAX_AGE_MS
        · rw [if_pos h1] at h
          exact List.mem_cons_of_mem _ (ih h)
        · rw [if_neg h1] at h
          rcases List.mem_cons.mp h with rfl | h
          · exact List.mem_cons_self _ _
          · exact List.mem_cons_of_mem _ (ih h)

lemma keyUnique {files : List (Str × MemoryMeta)} (hnd : (files.map Prod.fst).Nodup) :
    ∀ {f : Str} {a b : MemoryMeta}, (f, a) ∈ files → (f, b) ∈ files → a = b := by
  induction files with
  | nil => intro f a b h; simp at h
  | cons e rest ih =>
    intro f a b ha hb
    simp only [List.map_cons, List.nodup_cons] at hnd
    obtain ⟨hnot, hnd2⟩ := hnd
    rcases List.mem_cons.mp ha with rfl | ha2
    · rcases List.mem_cons.mp hb with heq | hb2
      · exact ((Prod.mk.injEq _ _ _ _).mp heq.symm).2
      · exact absurd (List.mem_map.mpr ⟨(f, b), hb2, rfl⟩) hnot
    · rcases List.mem_cons.mp hb with rfl | hb2
      · exact absurd (List.mem_map.mpr ⟨(f, a), ha2, rfl⟩) hnot
      · exact ih hnd2 ha2 hb2

/-- C2: a record whose metadata priority is P0 never appears in the
archived list of a sweep, whatever its `lastAccessedAt` age and whatever
the `dryRun` and `maxHotCount` options. -/
theorem C2_priority_floor (toTime : Str → Int) (now : Int)
    (files : List (Str × MemoryMeta)) (dryRun : Bool) (maxHotCount : Nat)
    (hnd : (files.map Prod.fst).Nodup) (f : Str) (m : MemoryMeta)
    (hf : (f, m) ∈ files) (hP0 : m.priority = .P0) :
    f ∉ (evictMemories toTime now files dryRun maxHotCount).archived := by
  intro hmem
  simp only [evictMemories] at hmem
  have hphase1 : f ∉ (evictPhase1 toTime now files).1 := by
    intro hin
    obtain ⟨m2, hm2, hp2⟩ := evictPhase1_archived_mem toTime now hin
    exact hp2 (keyUnique hnd hm2 hf ▸ hP0)
  by_cases hlen : maxHotCount < (evictPhase1 toTime now files).2.length
  · rw [if_pos hlen] at hmem
    rcases List.mem_append.mp hmem with hin | hin
    · exact hphase1 hin
    · obtain ⟨x, hxtk, hxf⟩ := List.mem_map.mp hin
      have hxcand := List.take_subset _ _ hxtk
      have hxne : x.2.priority ≠ .P0 := by
        rcases List.mem_append.mp hxcand with hx | hx
        · have := (List.mem_filter.mp (mem_stableSortBy.mp hx)).2
          intro hcon
          rw [hcon] at this
          exact absurd (of_decide_eq_true this) (by decide)
        · have := (List.mem_filter.mp (mem_stableSortBy.mp hx)).2
          intro hcon
          rw [hcon] at this
          exact absurd (of_decide_eq_true this) (by decide)
      have hxfiles : x ∈ files := by
        rcases List.mem_append.mp hxcand with hx | hx
        · exact evictPhase1_remaining_sub toTime now
            (List.mem_filter.mp (mem_stableSortBy.mp hx)).1
        · exact evictPhase1_remaining_sub toTime now
            (List.mem_filter.mp (mem_stableSortBy.mp hx)).1
      have hx2 : (f, x.2) ∈ files := by
        have : x = (f, x.2) := by
          rw [← hxf]
        rw [← this]
        exact hxfiles
      exact hxne (keyUnique hnd hx2 hf ▸ hP0)
  · rw [if_neg hlen] at hmem
    exact hphase1 hmem

/-- C2 witness: a stale P0 record survives a concrete sweep. -/
theorem C2_priority_floor_witness :
    "keep.md".toList ∉ (evictMemories (fun _ => 0) 100000000000
      [("keep.md".toList, ⟨.P0, "t".toList, "t".toList, "t".toList⟩)]
      false 0).archived :=
  C2_priority_floor (fun _ => 0) 100000000000
    [("keep.md".toList, ⟨.P0, "t".toList, "t".toList, "t".toList⟩)] false 0
    (by decide) "keep.md".toList ⟨.P0, "t".toList, "t".toList, "t".toList⟩
    (by decide) rfl

/-- A record is past its priority's age threshold. -/
def overAge (toTime : Str → Int) (now : Int) (m : MemoryMeta) : Prop :=
  (m.priority = .P2 ∧ now - toTime m.lastAccessedAt > P2_MAX_AGE_MS) ∨
  (m.priority = .P1 ∧ now - toTime m.lastAccessedAt > P1_MAX_AGE_MS)

lemma evictPhase1_fresh (toTime : Str → Int) (now : Int) :
    ∀ {files : List (Str × MemoryMeta)},
      (∀ r ∈ files, ¬ overAge toTime now r.2) →
      evictPhase1 toTime now files = ([], files) := by
  intro files
  induction files with
  | nil => intro _; rfl
  | cons e rest ih =>
    obtain ⟨f, m⟩ := e
    intro h
    have hrest := ih (fun r hr => h r (List.mem_cons_of_mem _ hr))
    have hm := h (f, m) (List.mem_cons_self _ _)
    simp only [overAge, not_or] at hm
    obtain ⟨h2, h1⟩ := hm
    simp only [evictPhase1, hrest]
    by_cases h0 : m.priority = .P0
    · rw [if_pos h0]
    · rw [if_neg h0, if_neg h2, if_neg h1]

lemma length_filter_partition (files : List (Str × MemoryMeta))
    (hP12 : ∀ r ∈ files, r.2.priority = Priority.P1 ∨ r.2.priority = Priority.P2) :
    (files.filter (fun r => decide (r.2.priority = .P2))).length
      + (files.filter (fun r => decide (r.2.priority = .P1))).length = files.length := by
  have hcongr : files.filter (fun r => decide (r.2.priority = .P1))
      = files.filter (fun x => !(decide (x.2.priority = .P2))) :=
    List.filter_congr (fun x hx => by rcases hP12 x hx with h | h <;> simp [h])
  rw [hcongr]
  have hperm := (List.filter_append_perm (fun r => decide (r.2.priority = .P2)) files).length_eq
  rw [List.length_append] at hperm
  exact hperm

lemma sorted_take_drop {α : Type} {le : α → α → Bool} {l : List α}
    (hs : l.Pairwise (fun a b => le a b = true)) (n : Nat) {x y : α}
    (hx : x ∈ l.take n) (hy : y ∈ l.drop n) : le x y = true := by
  have hsplit := List.take_append_drop n l
  rw [← hsplit] at hs
  exact (List.pairwise_append.mp hs).2.2 x hx y hy

lemma evict_fresh_archived (toTime : Str → Int) (now : Int)
    (files : List (Str × MemoryMeta)) (dryRun : Bool) (maxHotCount : Nat)
    (hfresh : ∀ r ∈ files, ¬ overAge toTime now r.2)
    (hover : maxHotCount < files.length) :
    (evictMemories toTime now files dryRun maxHotCount).archived =
      ((stableSortBy (fun a b => decide (lastMs toTime a ≤ lastMs toTime b))
          (files.filter (fun r => decide (r.2.priority = .P2)))
        ++ stableSortBy (fun a b => decide (lastMs toTime a ≤ lastMs toTime b))
          (files.filter (fun r => decide (r.2.priority = .P1)))).take
        (files.length - maxHotCount)).map Prod.fst := by
  simp only [evictMemories, evictPhase1_fresh toTime now hfresh]
  rw [if_pos hover]
  rw [List.nil_append]

/-- C3: when every hot record is P1 or P2, none is past its age threshold,
and the count exceeds `maxHotCount`, one sweep archives exactly
`count - maxHotCount` records; a P1 record is archived only if every P2
record is archived, and within a priority class an archived record is never
younger (by `lastAccessedAt`) than a kept record. -/
theorem C3_capacity_convergence (toTime : Str → Int) (now : Int)
    (files : List (Str × MemoryMeta)) (dryRun : Bool) (maxHotCount : Nat)
    (hnd : (files.map Prod.fst).Nodup)
    (hP12 : ∀ r ∈ files, r.2.priority = Priority.P1 ∨ r.2.priority = Priority.P2)
    (hfresh : ∀ r ∈ files, ¬ overAge toTime now r.2)
    (hover : maxHotCount < files.length) :
    (evictMemories toTime now files dryRun maxHotCount).archived.length
        = files.length - maxHotCount ∧
    (∀ f m g m2, (f, m) ∈ files → m.priority = Priority.P1 →
      f ∈ (evictMemories toTime now files dryRun maxHotCount).archived →
      (g, m2) ∈ files → m2.priority = Priority.P2 →
      g ∈ (evictMemories toTime now files dryRun maxHotCount).archived) ∧
    (∀ f m g m2, (f, m) ∈ files → (g, m2) ∈ files → m.priority = m2.priority →
      f ∈ (evictMemories toTime now files dryRun maxHotCount).archived →
      g ∉ (evictMemories toTime now files dryRun maxHotCount).archived →
      toTime m.lastAccessedAt ≤ toTime m2.lastAccessedAt) := by
  have harch := evict_fresh_archived toTime now files dryRun maxHotCount hfresh hover
  set le : (Str × MemoryMeta) → (Str × MemoryMeta) → Bool :=
    fun a b => decide (lastMs toTime a ≤ lastMs toTime b) with hle
  set A := stableSortBy le (files.filter (fun r => decide (r.2.priority = .P2))) with hA
  set B := stableSortBy le (files.filter (fun r => decide (r.2.priority = .P1))) with hB
  set n := files.length - maxHotCount with hn
  have hletrans : ∀ a b c, le a b = true → le b c = true → le a c = true := by
    intro a b c hab hbc
    simp only [hle, decide_eq_true_eq] at hab hbc ⊢
    exact le_trans hab hbc
  have hletotal : ∀ a b, (le a b || le b a) = true := by
    intro a b
    simp only [hle, Bool.or_eq_true, decide_eq_true_eq]
    exact le_total _ _
  have hAsorted : A.Pairwise (fun a b => le a b = true) := by
    rw [hA]
    exact pairwise_stableSortBy _ hletrans hletotal _
  have hBsorted : B.Pairwise (fun a b => le a b = true) := by
    rw [hB]
    exact pairwise_stableSortBy _ hletrans hletotal _
  have hAmem : ∀ x ∈ A, x ∈ files ∧ x.2.priority = Priority.P2 := by
    intro x hx
    rw [hA] at hx
    have hxf := List.mem_filter.mp (mem_stableSortBy.mp hx)
    exact ⟨hxf.1, of_decide_eq_true hxf.2⟩
  have hBmem : ∀ x ∈ B, x ∈ files ∧ x.2.priority = Priority.P1 := by
    intro x hx
    rw [hB] at hx
    have hxf := List.mem_filter.mp (mem_stableSortBy.mp hx)
    exact ⟨hxf.1, of_decide_eq_true hxf.2⟩
  have hAall : ∀ g m2, (g, m2) ∈ files → m2.priority = Priority.P2 → (g, m2) ∈ A := by
    intro g m2 hg hp
    rw [hA]
    exact mem_stableSortBy.mpr (List.mem_filter.mpr ⟨hg, by simp [hp]⟩)
  have hBall : ∀ g m2, (g, m2) ∈ files → m2.priority = Priority.P1 → (g, m2) ∈ B := by
    intro g m2 hg hp
    rw [hB]
    exact mem_stableSortBy.mpr (List.mem_filter.mpr ⟨hg, by simp [hp]⟩)
  have hlenAB : A.length + B.length = files.length := by
    rw [hA, hB, length_stableSortBy, length_stableSortBy]
    exact length_filter_partition files hP12
  have hmemtk : ∀ f m, (f, m) ∈ files → f ∈ ((A ++ B).take n).map Prod.fst →
      (f, m) ∈ (A ++ B).take n := by
    intro f m hfm hfa
    obtain ⟨x, hxtk, hxf⟩ := List.mem_map.mp hfa
    have hxfiles : x ∈ files := by
      rcases List.mem_append.mp (List.take_subset _ _ hxtk) with hx | hx
      · exact (hAmem x hx).1
      · exact (hBmem x hx).1
    have hx2 : (f, x.2) ∈ files := by
      have hxe : x = (f, x.2) := by rw [← hxf]
      rw [← hxe]
      exact hxfiles
    have hxm : x.2 = m := keyUnique hnd hx2 hfm
    have hxe : x = (f, m) := by rw [← hxf, ← hxm]
    rw [← hxe]
    exact hxtk
  refine ⟨?_, ?_, ?_⟩
  · rw [harch, List.length_map, List.length_take, List.length_append, hlenAB]
    exact Nat.min_eq_left (by omega)
  · intro f m g m2 hfm hP1f hfarch hgm hP2g
    rw [harch] at hfarch ⊢
    have hftk := hmemtk f m hfm hfarch
    rw [List.take_append_eq_append_take] at hftk
    have hfB : (f, m) ∈ B.take (n - A.length) := by
      rcases List.mem_append.mp hftk with hx | hx
      · exfalso
        have h2 : m.priority = Priority.P2 := (hAmem _ (List.take_subset _ _ hx)).2
        rw [hP1f] at h2
        exact absurd h2 (by decide)
      · exact hx
    have hkpos : n - A.length ≠ 0 := by
      intro h0
      rw [h0, List.take_zero] at hfB
      exact absurd hfB (List.not_mem_nil _)
    have hAfull : A.take n = A := List.take_of_length_le (by omega)
    have hgA : (g, m2) ∈ A := hAall g m2 hgm hP2g
    have hgtk : (g, m2) ∈ (A ++ B).take n := by
      rw [List.take_append_eq_append_take]
      refine List.mem_append.mpr (Or.inl ?_)
      rw [hAfull]
      exact hgA
    exact List.mem_map.mpr ⟨(g, m2), hgtk, rfl⟩
  · intro f m g m2 hfm hgm hpp hfarch hgnot
    rw [harch] at hfarch hgnot
    have hftk := hmemtk f m hfm hfarch
    have hgnotk : (g, m2) ∉ (A ++ B).take n := by
      intro hcon
      exact hgnot (List.mem_map.mpr ⟨(g, m2), hcon, rfl⟩)
    rw [List.take_append_eq_append_take] at hftk hgnotk
    rcases hP12 (f, m) hfm with hPf | hPf
    · have hPg : m2.priority = Priority.P1 := by
        rw [← hpp]
        exact hPf
      have hfB : (f, m) ∈ B.take (n - A.length) := by
        rcases List.mem_append.mp hftk with hx | hx
        · exfalso
          have h2 : m.priority = Priority.P2 := (hAmem _ (List.take_subset _ _ hx)).2
          rw [hPf] at h2
          exact absurd h2 (by decide)
        · exact hx
      have hgB : (g, m2) ∈ B := hBall g m2 hgm hPg
      have hgdrop : (g, m2) ∈ B.drop (n - A.length) := by
        have hg2 : (g, m2) ∈ B.take (n - A.length) ++ B.drop (n - A.length) := by
          rw [List.take_append_drop]
          exact hgB
        rcases List.mem_append.mp hg2 with hx | hx
        · exact absurd (List.mem_append.mpr (Or.inr hx)) hgnotk
        · exact hx
      have hled := sorted_take_drop hBsorted (n - A.length) hfB hgdrop
      simp only [hle, lastMs, decide_eq_true_eq] at hled
      exact hled
    · have hPg : m2.priority = Priority.P2 := by
        rw [← hpp]
        exact hPf
      have hfA : (f, m) ∈ A.take n := by
        rcases List.mem_append.mp hftk with hx | hx
        · exact hx
        · exfalso
          have h2 : m.priority = Priority.P1 := (hBmem _ (List.take_subset _ _ hx)).2
          rw [hPf] at h2
          exact absurd h2 (by decide)
      have hgA : (g, m2) ∈ A := hAall g m2 hgm hPg
      have hgdrop : (g, m2) ∈ A.drop n := by
        have hg2 : (g, m2) ∈ A.take n ++ A.drop n := by
          rw [List.take_append_drop]
          exact hgA
        rcases List.mem_append.mp hg2 with hx | hx
        · exact absurd (List.mem_append.mpr (Or.inl hx)) hgnotk
        · exact hx
      have hled := sorted_take_drop hAsorted n hfA hgdrop
      simp only [hle, lastMs, decide_eq_true_eq] at hled
      exact hled

/-- C3 witness: three fresh records (two P2, one P1) with `maxHotCount = 1`
archive exactly two records. -/
theorem C3_capacity_convergence_witness :
    (evictMemories (fun s => (s.length : Int)) 0
      [("a.md".toList, ⟨.P2, "x".toList, "x".toList, "xxxxxxxxxx".toList⟩),
       ("b.md".toList, ⟨.P1, "x".toList, "x".toList, "xxxxx".toList⟩),
       ("c.md".toList, ⟨.P2, "x".toList, "x".toList, "xxx".toList⟩)]
      false 1).archived.length
    = ([("a.md".toList, (⟨.P2, "x".toList, "x".toList, "xxxxxxxxxx".toList⟩ : MemoryMeta)),
       ("b.md".toList, ⟨.P1, "x".toList, "x".toList, "xxxxx".toList⟩),
       ("c.md".toList, ⟨.P2, "x".toList, "x".toList, "xxx".toList⟩)] : List (Str × MemoryMeta)).length - 1 :=
  (C3_capacity_convergence (fun s => (s.length : Int)) 0
    [("a.md".toList, ⟨.P2, "x".toList, "x".toList, "xxxxxxxxxx".toList⟩),
     ("b.md".toList, ⟨.P1, "x".toList, "x".toList, "xxxxx".toList⟩),
     ("c.md".toList, ⟨.P2, "x".toList, "x".toList, "xxx".toList⟩)]
    false 1 (by decide) (by decide)
    (by intro r hr; fin_cases hr <;> simp only [overAge] <;> decide) (by decide)).1

/- ### Read path (`readMemories`) -/

/-- A separator of the query tokenizer: whitespace or one of the fixed
punctuation characters in `/[\s\-_,;:]+/`. -/
def isSepChar (c : Char) : Bool :=
  isWsChar c || c = '-' || c = '_' || c = ',' || c = ';' || c = ':'

/-- Split at every separator character, keeping empty pieces (they are
discarded by the tokenizer, which makes splitting on single separators
equivalent to splitting on separator runs). -/
def splitSep : Str → List Str
  | [] => [[]]
  | c :: rest =>
    if isSepChar c then [] :: splitSep rest
    else
      match splitSep rest with
      | [] => [[c]]
      | l :: ls => (c :: l) :: ls

/-- The tokenization in `readMemories`:
`query.trim().split(/[\s\-_,;:]+/).filter(t => t.length > 0)`. -/
def tokenize (q : Str) : List Str :=
  (splitSep (jsTrim q)).filter (fun t => decide (t ≠ []))

def toLowerStr (s : Str) : Str := s.map Char.toLower

/-- JS `a.toLowerCase().includes(t.toLowerCase())`. -/
def containsCI (s t : Str) : Bool := strIncludes (toLowerStr s) (toLowerStr t)

/-- The relevance score used for ordering: the number of query terms that
are literal case-insensitive substrings of the filename or the content. -/
def literalScore (terms : List Str) (m : MemFile) : Nat :=
  (terms.filter (fun t => containsCI m.file t || containsCI m.content t)).length

/-- The search filter of `readMemories`: per-term fuzzy result sets from the
`fuse` oracle (index lists into `memories`), intersected across terms in
order, then resolved to records and sorted by descending literal score
(`scoreB - scoreA` under a stable sort). -/
def searchResults (fuse : Str → List Nat) (memories : List MemFile)
    (terms : List Str) : List MemFile :=
  let sets := terms.map fuse
  let matched :=
    match sets with
    | [] => []
    | s0 :: rest => rest.foldl (fun acc s => acc.filter (fun x => decide (x ∈ s))) s0
  let picked := matched.filterMap (fun i => memories.get? i)
  stableSortBy (fun a b => decide (literalScore terms b ≤ literalScore terms a)) picked

/-- The enumeration of hot records: the `.md` files of the user directory in
directory order with their contents. -/
def mkMemories (store : List (Str × Str)) : List MemFile :=
  (store.filter (fun e => mdExt.isSuffixOf e.1)).map (fun e => ⟨e.1, e.2⟩)

/-- The result set of `readMemories`: all enumerated records when the query
is absent, empty (JS falsy) or tokenizes to nothing, otherwise the search
filter. -/
def readResults (fuse : Str → List Nat) (store : List (Str × Str))
    (query : Option Str) : List MemFile :=
  let memories := mkMemories store
  match query with
  | none => memories
  | some q =>
    if q = [] then memories
    else
      let terms := tokenize q
      if terms = [] then memories
      else searchResults fuse memories terms

/-- One iteration of the access-refresh loop of `readMemories`: ensure
frontmatter on the enumeration-time content (the migration write of a
legacy record is immediately overwritten) and persist the metadata with
`lastAccessedAt` set to now. -/
def refreshOne (inferC : Str → Str) (nowIso : Str) (store : List (Str × Str))
    (m : MemFile) : List (Str × Str) :=
  let e := ensureFrontmatter inferC nowIso m.content
  setStore store m.file (serializeFrontmatter { e.1 with lastAccessedAt := nowIso } e.2.1)

/-- The `readMemories` of mem.ts: enumerate, filter via the search engine,
refresh `lastAccessedAt` of every record in the result set, run the
throttled sweep (`sweep` is the identity when the 24-hour throttle
suppresses it), and format the results from the enumeration-time
contents. -/
def readMemories (fuse : Str → List Nat) (inferC : Str → Str) (nowIso : Str)
    (sweep : List (Str × Str) → List (Str × Str))
    (store : List (Str × Str)) (query : Option Str) :
    List Str × List (Str × Str) :=
  let results := readResults fuse store query
  let store1 := results.foldl (refreshOne inferC nowIso) store
  (results.map formatMemory, sweep store1)

example :
    readResults (fun t => if t = "alpha".toList then [0] else [0, 1])
      [("a.md".toList, "alpha text".toList), ("b.md".toList, "beta text".toList)]
      (some "alpha beta".toList)
    = [⟨"a.md".toList, "alpha text".toList⟩] := by decide

lemma getStore_setStore_same (store : List (Str × Str)) (k v : Str) :
    getStore (setStore store k v) k = some v := by
  induction store with
  | nil => simp [setStore, getStore]
  | cons e rest ih =>
    obtain ⟨k1, v1⟩ := e
    by_cases hk : k1 = k
    · simp [setStore, hk, getStore]
    · rw [setStore, if_neg hk]
      simp only [getStore, List.find?] at ih ⊢
      rw [show (decide (k1 = k)) = false from by simp [hk]]
      exact ih

lemma getStore_setStore_other (store : List (Str × Str)) (k k2 v : Str) (h : k2 ≠ k) :
    getStore (setStore store k v) k2 = getStore store k2 := by
  induction store with
  | nil =>
    simp only [setStore, getStore, List.find?]
    rw [show decide (((k, v) : Str × Str).1 = k2) = false from by simp [Ne.symm h]]
  | cons e rest ih =>
    obtain ⟨k1, v1⟩ := e
    by_cases hk : k1 = k
    · subst hk
      rw [setStore, if_pos rfl]
      simp only [getStore, List.find?]
      rw [show decide (((k1, v) : Str × Str).1 = k2) = false from by simp [Ne.symm h]]
    · rw [setStore, if_neg hk]
      simp only [getStore, List.find?] at ih ⊢
      by_cases hk2 : k1 = k2
      · rw [show decide (((k1, v1) : Str × Str).1 = k2) = true from by simp [hk2]]
      · rw [show decide (((k1, v1) : Str × Str).1 = k2) = false from by simp [hk2]]
        exact ih

lemma eq_of_key_nodup {α β : Type} (key : α → β) :
    ∀ {l : List α}, (l.map key).Nodup →
      ∀ {a b : α}, a ∈ l → b ∈ l → key a = key b → a = b := by
  intro l
  induction l with
  | nil => intro _ a b ha; simp at ha
  | cons e rest ih =>
    intro hnd a b ha hb hk
    simp only [List.map_cons, List.nodup_cons] at hnd
    obtain ⟨hnot, hnd2⟩ := hnd
    rcases List.mem_cons.mp ha with rfl | ha2
    · rcases List.mem_cons.mp hb with rfl | hb2
      · rfl
      · exact absurd (List.mem_map.mpr ⟨b, hb2, hk.symm⟩) hnot
    · rcases List.mem_cons.mp hb with rfl | hb2
      · exact absurd (List.mem_map.mpr ⟨a, ha2, hk⟩) hnot
      · exact ih hnd2 ha2 hb2 hk

lemma mkMemories_file_nodup {store : List (Str × Str)}
    (hnd : (store.map Prod.fst).Nodup) :
    ((mkMemories store).map MemFile.file).Nodup := by
  rw [mkMemories, List.map_map]
  have hfun : (MemFile.file ∘ fun e : Str × Str => (⟨e.1, e.2⟩ : MemFile)) = Prod.fst := rfl
  rw [hfun]
  exact hnd.sublist ((List.filter_sublist store).map Prod.fst)

lemma searchResults_sub {fuse : Str → List Nat} {memories : List MemFile}
    {terms : List Str} {r : MemFile} (hr : r ∈ searchResults fuse memories terms) :
    r ∈ memories := by
  simp only [searchResults] at hr
  have hpicked := mem_stableSortBy.mp hr
  obtain ⟨i, _, hi⟩ := List.mem_filterMap.mp hpicked
  exact List.get?_mem hi

lemma readResults_sub {fuse : Str → List Nat} {store : List (Str × Str)}
    {query : Option Str} {r : MemFile} (hr : r ∈ readResults fuse store query) :
    r ∈ mkMemories store := by
  match query with
  | none => exact hr
  | some q =>
    rw [readResults] at hr
    by_cases hq : q = []
    · rw [if_pos hq] at hr
      exact hr
    · rw [if_neg hq] at hr
      by_cases ht : tokenize q = []
      · rw [if_pos ht] at hr
        exact hr
      · rw [if_neg ht] at hr
        exact searchResults_sub hr

/-- The content written for a result record by the refresh loop. -/
def refreshedContent (inferC : Str → Str) (nowIso : Str) (m : MemFile) : Str :=
  serializeFrontmatter
    { (ensureFrontmatter inferC nowIso m.content).1 with lastAccessedAt := nowIso }
    (ensureFrontmatter inferC nowIso m.content).2.1

lemma foldl_refresh_other (inferC : Str → Str) (nowIso : Str) :
    ∀ (results : List MemFile) (store : List (Str × Str)) (f : Str),
      f ∉ results.map MemFile.file →
      getStore (results.foldl (refreshOne inferC nowIso) store) f = getStore store f := by
  intro results
  induction results with
  | nil => intro store f _; rfl
  | cons m rest ih =>
    intro store f hf
    simp only [List.map_cons, List.mem_cons, not_or] at hf
    obtain ⟨hf1, hf2⟩ := hf
    rw [List.foldl_cons, ih _ f (by simpa using hf2)]
    exact getStore_setStore_other store m.file f _ hf1

lemma foldl_refresh_result (inferC : Str → Str) (nowIso : Str) :
    ∀ (results : List MemFile) (store : List (Str × Str)) (m : MemFile),
      m ∈ results →
      (∀ m2 ∈ results, m2.file = m.file → m2 = m) →
      getStore (results.foldl (refreshOne inferC nowIso) store) m.file
        = some (refreshedContent inferC nowIso m) := by
  intro results
  induction results with
  | nil => intro store m hm; simp at hm
  | cons m0 rest ih =>
    intro store m hm hsame
    by_cases hin : m ∈ rest
    · rw [List.foldl_cons]
      exact ih _ m hin (fun m2 hm2 => hsame m2 (List.mem_cons_of_mem _ hm2))
    · have hm0 : m = m0 := by
        rcases List.mem_cons.mp hm with h | h
        · exact h
        · exact absurd h hin
      subst hm0
      have hnotrest : m.file ∉ rest.map MemFile.file := by
        intro hcon
        obtain ⟨m2, hm2, hm2f⟩ := List.mem_map.mp hcon
        have := hsame m2 (List.mem_cons_of_mem _ hm2) hm2f
        rw [this] at hm2
        exact hin hm2
      rw [List.foldl_cons, foldl_refresh_other inferC nowIso rest _ _ hnotrest]
      exact getStore_setStore_same store m.file _

/-- C5 counterexample: with two hot records and a query whose fuzzy search
matches only the first, `readMemories` leaves the second record's stored
`lastAccessedAt` untouched — the refresh loop runs over the filtered result
set, not over all enumerated records as the claim states.  The record is
enumerated (it is a `.md` file of the store) yet its content after the call
is unchanged, still carrying the old access time. -/
theorem C5_counterexample :
    (⟨"b.md".toList,
        serializeFrontmatter ⟨.P2, "t".toList, "t".toList, "old".toList⟩ "B".toList⟩ : MemFile)
      ∈ mkMemories
        [("a.md".toList, serializeFrontmatter ⟨.P2, "t".toList, "t".toList, "old".toList⟩ "A".toList),
         ("b.md".toList, serializeFrontmatter ⟨.P2, "t".toList, "t".toList, "old".toList⟩ "B".toList)] ∧
    getStore (readMemories (fun _ => [0]) (fun _ => []) "NEW".toList id
        [("a.md".toList, serializeFrontmatter ⟨.P2, "t".toList, "t".toList, "old".toList⟩ "A".toList),
         ("b.md".toList, serializeFrontmatter ⟨.P2, "t".toList, "t".toList, "old".toList⟩ "B".toList)]
        (some "q".toList)).2 "b.md".toList
      = some (serializeFrontmatter ⟨.P2, "t".toList, "t".toList, "old".toList⟩ "B".toList) ∧
    (parseFrontmatter
        (serializeFrontmatter ⟨.P2, "t".toList, "t".toList, "old".toList⟩ "B".toList)).1
      = some ⟨.P2, "t".toList, "t".toList, "old".toList⟩ ∧
    ("old".toList : Str) ≠ "NEW".toList := by
  refine ⟨by decide, by decide, by decide, by decide⟩

/-- C5 (amended): in a `readMemories` call whose throttled sweep does not
fire, exactly the records of the filtered result set have their metadata
refreshed (`lastAccessedAt` set to now) and persisted; every other stored
file is unchanged. -/
theorem C5_refresh_only_results (fuse : Str → List Nat) (inferC : Str → Str)
    (nowIso : Str) (store : List (Str × Str)) (query : Option Str)
    (hnd : (store.map Prod.fst).Nodup) :
    (∀ m ∈ readResults fuse store query,
      getStore (readMemories fuse inferC nowIso id store query).2 m.file
        = some (refreshedContent inferC nowIso m)) ∧
    (∀ f, f ∉ (readResults fuse store query).map MemFile.file →
      getStore (readMemories fuse inferC nowIso id store query).2 f = getStore store f) := by
  have hstate : (readMemories fuse inferC nowIso id store query).2
      = (readResults fuse store query).foldl (refreshOne inferC nowIso) store := rfl
  constructor
  · intro m hm
    rw [hstate]
    refine foldl_refresh_result inferC nowIso _ store m hm ?_
    intro m2 hm2 hfile
    exact eq_of_key_nodup MemFile.file (mkMemories_file_nodup hnd)
      (readResults_sub hm2) (readResults_sub hm) hfile
  · intro f hf
    rw [hstate]
    exact foldl_refresh_other inferC nowIso _ store f hf

/-- C5 witness: the amended statement evaluated on the concrete two-record
store of the counterexample — the matched record is rewritten with the new
access time, the unmatched one keeps its stored content. -/
theorem C5_refresh_only_results_witness :
    getStore (readMemories (fun _ => [0]) (fun _ => []) "NEW".toList id
        [("a.md".toList, serializeFrontmatter ⟨.P2, "t".toList, "t".toList, "old".toList⟩ "A".toList),
         ("b.md".toList, serializeFrontmatter ⟨.P2, "t".toList, "t".toList, "old".toList⟩ "B".toList)]
        (some "q".toList)).2 "b.md".toList
      = getStore
        [("a.md".toList, serializeFrontmatter ⟨.P2, "t".toList, "t".toList, "old".toList⟩ "A".toList),
         ("b.md".toList, serializeFrontmatter ⟨.P2, "t".toList, "t".toList, "old".toList⟩ "B".toList)]
        "b.md".toList :=
  (C5_refresh_only_results (fun _ => [0]) (fun _ => []) "NEW".toList
    [("a.md".toList, serializeFrontmatter ⟨.P2, "t".toList, "t".toList, "old".toList⟩ "A".toList),
     ("b.md".toList, serializeFrontmatter ⟨.P2, "t".toList, "t".toList, "old".toList⟩ "B".toList)]
    (some "q".toList) (by decide)).2 "b.md".toList (by decide)

lemma foldl_filter_mem :
    ∀ (rest : List (List Nat)) (acc : List Nat) (i : Nat),
      i ∈ rest.foldl (fun acc s => acc.filter (fun x => decide (x ∈ s))) acc →
      i ∈ acc ∧ ∀ s ∈ rest, i ∈ s := by
  intro rest
  induction rest with
  | nil =>
    intro acc i h
    exact ⟨h, by simp⟩
  | cons s rest ih =>
    intro acc i h
    rw [List.foldl_cons] at h
    obtain ⟨hmem, hall⟩ := ih _ i h
    have hf := List.mem_filter.mp hmem
    refine ⟨hf.1, ?_⟩
    intro s2 hs2
    rcases List.mem_cons.mp hs2 with rfl | hs3
    · exact of_decide_eq_true hf.2
    · exact hall s2 hs3

/-- C6: a record appears in the result set of a searched `readMemories`
call only when a single index of it lies in the fuzzy-match result set of
every token of the query — the per-token sets are intersected, so one
missed token excludes the record. -/
theorem C6_and_semantics (fuse : Str → List Nat) (store : List (Str × Str))
    (q : Str) (r : MemFile)
    (hq : q ≠ []) (ht : tokenize q ≠ [])
    (hr : r ∈ readResults fuse store (some q)) :
    ∃ i, (mkMemories store).get? i = some r ∧ ∀ t ∈ tokenize q, i ∈ fuse t := by
  rw [readResults, if_neg hq, if_neg ht] at hr
  obtain ⟨t0, ts, hterms⟩ : ∃ t0 ts, tokenize q = t0 :: ts := by
    match hcase : tokenize q with
    | [] => exact absurd hcase ht
    | t0 :: ts => exact ⟨t0, ts, rfl⟩
  rw [hterms] at hr
  simp only [searchResults, List.map_cons] at hr
  have hpicked := mem_stableSortBy.mp hr
  obtain ⟨i, himatched, hig⟩ := List.mem_filterMap.mp hpicked
  obtain ⟨hi0, hiall⟩ := foldl_filter_mem _ _ i himatched
  refine ⟨i, hig, ?_⟩
  intro t hti
  rw [hterms] at hti
  rcases List.mem_cons.mp hti with rfl | hts
  · exact hi0
  · exact hiall (fuse t) (List.mem_map.mpr ⟨t, hts, rfl⟩)

/-- C6 witness: with a fuzzy oracle matching only the first record, the
record returned for a two-token query is index 0 in both token sets. -/
theorem C6_and_semantics_witness :
    ∃ i, (mkMemories
        [("a.md".toList, "alpha beta".toList),
         ("b.md".toList, "gamma".toList)]).get? i
      = some ⟨"a.md".toList, "alpha beta".toList⟩ ∧
      ∀ t ∈ tokenize "alpha beta".toList,
        i ∈ (fun (_ : Str) => [0]) t :=
  C6_and_semantics (fun _ => [0])
    [("a.md".toList, "alpha beta".toList), ("b.md".toList, "gamma".toList)]
    "alpha beta".toList ⟨"a.md".toList, "alpha beta".toList⟩
    (by decide) (by decide) (by decide)

/-- C10: the strings returned by `readMemories` are built from the contents
read at enumeration time: the output equals the formatting of the
enumeration-time result set, and is unchanged under any choice of the
current time, the migration oracle and the sweep — so a record with
metadata displays its previous `lastAccessedAt`, not the value just
persisted, and a legacy record displays its raw unmigrated content. -/
theorem C10_output_enumeration_time (fuse : Str → List Nat) (inferC : Str → Str)
    (nowIso : Str) (sweep : List (Str × Str) → List (Str × Str))
    (store : List (Str × Str)) (query : Option Str) :
    (readMemories fuse inferC nowIso sweep store query).1
      = (readResults fuse store query).map formatMemory ∧
    (∀ inferC2 nowIso2 sweep2,
      (readMemories fuse inferC nowIso sweep store query).1
        = (readMemories fuse inferC2 nowIso2 sweep2 store query).1) :=
  ⟨rfl, fun _ _ _ => rfl⟩
